import Mathlib

/-!
Shallow embedding of the `auto-infrast` workplace optimizer (`src/infrast.py`).

Python dicts are modelled as insertion-ordered association lists
(`dictInsert` replaces in place, like CPython), Python sets as
insertion-ordered duplicate-free lists (only membership and insertion are
used by the source), floats as exact rationals (`Q` below), and fallible operations
(`d[k] += 1` on a missing key, malformed config tokens) as `Option`.
-/

namespace Infrast

/-! ### Python dict / set helpers -/

/-- Python `d[k] = v`: replace in place if the key exists, else append. -/
def dictInsert {α : Type} (d : List (String × α)) (k : String) (v : α) :
    List (String × α) :=
  if d.any (fun p => p.1 == k) then
    d.map (fun p => if p.1 == k then (k, v) else p)
  else d ++ [(k, v)]

/-- Python `d.get(k)` / `k in d` + `d[k]` on a dict with unique keys. -/
def dictGet {α : Type} (d : List (String × α)) (k : String) : Option α :=
  (d.find? (fun p => p.1 == k)).map (·.2)

/-- Python `d.get(k, v₀)`. -/
def dictGetD {α : Type} (d : List (String × α)) (k : String) (v₀ : α) : α :=
  (dictGet d k).getD v₀

/-- Python `d[k] += 1`: `none` models the `KeyError` raised on a missing key. -/
def incrExisting (d : List (String × Nat)) (k : String) :
    Option (List (String × Nat)) :=
  if (dictGet d k).isSome then
    some (d.map (fun p => if p.1 == k then (p.1, p.2 + 1) else p))
  else none

/-- Python `s.add(x)` on a set modelled as an insertion-ordered list. -/
def setAdd (s : List String) (k : String) : List String :=
  if s.contains k then s else s ++ [k]

/-- Prefix test on character lists (helper for Python's `in` on strings). -/
def charsPre : List Char → List Char → Bool
  | [], _ => true
  | _ :: _, [] => false
  | a :: as, b :: bs => a == b && charsPre as bs

/-- Substring test on character lists. -/
def charsSub (needle : List Char) : List Char → Bool
  | [] => needle.isEmpty
  | h :: t => charsPre needle (h :: t) || charsSub needle t

/-- Python `needle in hay` on strings. -/
def strIn (needle hay : String) : Bool :=
  charsSub needle.data hay.data

/-! ### Exact rational numbers

Python's float efficiency values and per-slot scores are modelled as exact
rationals. The representation stores the denominator minus one, so the
denominator is positive by construction and every arithmetic operation
below is structurally recursive (kernel-reducible). -/

/-- A rational number `num / (den1 + 1)`. -/
structure Q where
  num : Int
  den1 : Nat := 0
deriving DecidableEq, Repr, Inhabited

/-- The (always positive) denominator, as an integer. -/
def Q.den (q : Q) : Int := (q.den1 : Int) + 1

instance (n : Nat) : OfNat Q n := ⟨⟨(n : Int), 0⟩⟩

instance : Neg Q := ⟨fun q => ⟨-q.num, q.den1⟩⟩

instance : Add Q :=
  ⟨fun a b => ⟨a.num * b.den + b.num * a.den, (a.den1 + 1) * (b.den1 + 1) - 1⟩⟩

/-- Division by a group size; division by zero yields 0 (the Python source
raises `ZeroDivisionError` there, which only an empty core group reaches). -/
def Q.divNat (a : Q) (n : Nat) : Q :=
  if n = 0 then ⟨0, 0⟩ else ⟨a.num, (a.den1 + 1) * n - 1⟩

/-- Value comparison by cross-multiplication (denominators positive). -/
def Q.lt (a b : Q) : Prop := a.num * b.den < b.num * a.den

instance : LT Q := ⟨Q.lt⟩

instance (a b : Q) : Decidable (a < b) :=
  inferInstanceAs (Decidable (a.num * b.den < b.num * a.den))

/-- The value of a `Q` as a Mathlib rational (proof-side only). -/
def Q.toRat (q : Q) : Rat := (q.num : Rat) / ((q.den1 : Rat) + 1)

theorem Q.den_cast_pos (q : Q) : (0 : Rat) < (q.den1 : Rat) + 1 := by
  positivity

theorem Q.lt_iff_toRat {a b : Q} : a < b ↔ a.toRat < b.toRat := by
  show Q.lt a b ↔ _
  rw [Q.toRat, Q.toRat, div_lt_div_iff (Q.den_cast_pos a) (Q.den_cast_pos b)]
  rw [Q.lt, Q.den, Q.den]
  exact_mod_cast Iff.rfl

theorem Q.lt_trans {a b c : Q} (h1 : a < b) (h2 : b < c) : a < c :=
  Q.lt_iff_toRat.mpr
    ((Q.lt_iff_toRat.mp h1).trans (Q.lt_iff_toRat.mp h2))

theorem Q.lt_asymm {a b : Q} (h : a < b) : ¬ b < a := fun h2 =>
  absurd (Q.lt_iff_toRat.mp h2) (not_lt.mpr (le_of_lt (Q.lt_iff_toRat.mp h)))

theorem Q.lt_irrefl (a : Q) : ¬ a < a := fun h =>
  (Q.lt_iff_toRat.mp h).false

theorem Q.not_lt_trans {a b c : Q} (h1 : ¬ a < b) (h2 : ¬ b < c) :
    ¬ a < c := fun h =>
  absurd (Q.lt_iff_toRat.mp h)
    (not_lt.mpr (le_trans (not_lt.mp (fun hc => h2 (Q.lt_iff_toRat.mpr hc)))
      (not_lt.mp (fun hc => h1 (Q.lt_iff_toRat.mpr hc)))))

theorem Q.lt_of_not_lt_of_lt {a b c : Q} (h1 : ¬ a < b) (h2 : a < c) :
    b < c :=
  Q.lt_iff_toRat.mpr
    (lt_of_le_of_lt (not_lt.mp (fun hc => h1 (Q.lt_iff_toRat.mpr hc)))
      (Q.lt_iff_toRat.mp h2))

/-! ### Data model (mirrors the Python dataclasses) -/

structure Operator where
  id : String
  name : String
  elite : Int
  level : Int
  own : Bool
  potential : Int
  rarity : Int
deriving DecidableEq, Repr, Inhabited

structure ControlCenterRequirement where
  operator : String
  elite_required : Int
deriving DecidableEq, Repr, Inhabited

structure DormitoryRequirement where
  operator : String
  elite_required : Int
deriving DecidableEq, Repr, Inhabited

structure PowerStationRequirement where
  operator : String
  elite_required : Int
deriving DecidableEq, Repr, Inhabited

structure OperatorEfficiency where
  operators : List String
  workplace_type : String
  base_efficiency : Q
  synergy_efficiency : Q
  description : String
  elite_requirements : List (String × Int)
  requires_control_center : List ControlCenterRequirement
  requires_dormitory : List DormitoryRequirement
  requires_power_station : List PowerStationRequirement
  special_conditions : Option String := none
  apply_each : Bool := false
  priority : Int := 0
  products : List String := []
deriving DecidableEq, Repr, Inhabited

structure Workplace where
  id : String
  name : String
  max_operators : Nat
  base_efficiency : Q
  products : List String := []
  current_product : String := ""
deriving DecidableEq, Repr, Inhabited

structure AssignmentResult where
  workplace : Workplace
  optimal_operators : List Operator
  total_efficiency : Q
  operator_efficiency : Q
  applied_combinations : List String
  control_center_requirements : List ControlCenterRequirement
  dormitory_requirements : List DormitoryRequirement
  power_station_requirements : List PowerStationRequirement
deriving DecidableEq, Repr, Inhabited

/-! ### Raw rule specification (shape of `efficiency.json` after JSON decoding) -/

structure RawRule where
  combo : List String
  efficiency? : Option Q
  control_center : List String := []
  dormitory : List String := []
  power_station : List String := []
  apply_each : Bool := false
  priority : Int := 0
  product? : Option (List String) := none
deriving Repr

inductive SystemData where
  | flat (rules : List RawRule)
  | structured (base_combo : List String) (product? : Option (List String))
      (rules : List RawRule)
deriving Repr

/-- `combination_rules`: workplace type → system name → system data,
insertion-ordered as in the JSON file. -/
structure RuleSpec where
  combination_rules : List (String × List (String × SystemData))
deriving Repr

/-! ### Rule compiler (`load_efficiency_rules`) -/

/-- Python `str.strip()` on a character list. -/
def trimChars (l : List Char) : List Char :=
  ((l.dropWhile (·.isWhitespace)).reverse.dropWhile (·.isWhitespace)).reverse

/-- Split at the first occurrence of a character (`str.split(c, 1)`). -/
def splitFirst (c : Char) : List Char → List Char × Option (List Char)
  | [] => ([], none)
  | x :: xs =>
    if x == c then ([], some xs)
    else
      let r := splitFirst c xs
      (x :: r.1, r.2)

/-- Digit-string to number; `none` on the empty string or a non-digit. -/
def digitsToNat : List Char → Option Nat
  | [] => none
  | l => l.foldl (fun acc c =>
      match acc with
      | none => none
      | some n => if c.isDigit then some (n * 10 + (c.toNat - '0'.toNat))
                  else none) (some 0)

/-- Python `int(s)` on a trimmed string (optionally signed). -/
def parseIntChars (l : List Char) : Option Int :=
  match l with
  | '-' :: rest => (digitsToNat rest).map (fun n => -(n : Int))
  | _ => (digitsToNat l).map (fun n => (n : Int))

/-- `parse_operator_string`: split a `name/tier` token; `none` models the
`ValueError` raised by `int()` on a malformed tier. -/
def parse_operator_string (s : String) : Option (String × Int) :=
  if s.data.contains '/' then
    match splitFirst '/' s.data with
    | (n, some rest) =>
      (parseIntChars (trimChars rest)).map (fun e => (⟨trimChars n⟩, e))
    | (_, none) => none
  else some (⟨trimChars s.data⟩, 0)

/-- Parse a list of `name/tier` tokens. -/
def parse_tokens (tokens : List String) : Option (List (String × Int)) :=
  tokens.mapM parse_operator_string

/-- Accumulate `elite_requirements` entries (`if elite > 0`). -/
def elite_req_dict (start : List (String × Int)) (parsed : List (String × Int)) :
    List (String × Int) :=
  parsed.foldl (fun d p => if 0 < p.2 then dictInsert d p.1 p.2 else d) start

/-- Compile one rule from a flat (list-form) system entry. -/
def compile_flat_rule (workplace_type system_name : String) (rd : RawRule) :
    Option OperatorEfficiency := do
  let parsed ← parse_tokens rd.combo
  let operators := parsed.map (·.1)
  let ccs ← parse_tokens rd.control_center
  let dorms ← parse_tokens rd.dormitory
  let pows ← parse_tokens rd.power_station
  let eff ← rd.efficiency?
  let description :=
    if rd.apply_each then "通用单人"
    else system_name ++ " - " ++ String.intercalate ", " operators
  pure
    { operators := operators
      workplace_type := workplace_type
      base_efficiency := 0
      synergy_efficiency := eff
      description := description
      elite_requirements := elite_req_dict [] parsed
      requires_control_center := ccs.map (fun p => ⟨p.1, p.2⟩)
      requires_dormitory := dorms.map (fun p => ⟨p.1, p.2⟩)
      requires_power_station := pows.map (fun p => ⟨p.1, p.2⟩)
      special_conditions := none
      apply_each := rd.apply_each
      priority := rd.priority
      products := rd.product?.getD [] }

/-- Compile one sub-rule of a structured (`base_combo`) system entry. -/
def compile_structured_rule (workplace_type system_name : String)
    (base_parsed : List (String × Int)) (base_products : List String)
    (rd : RawRule) : Option OperatorEfficiency := do
  let parsed ← parse_tokens rd.combo
  let all_operators := base_parsed.map (·.1) ++ parsed.map (·.1)
  let ccs ← parse_tokens rd.control_center
  let dorms ← parse_tokens rd.dormitory
  let pows ← parse_tokens rd.power_station
  let eff ← rd.efficiency?
  let rule_products := rd.product?.getD base_products
  pure
    { operators := all_operators
      workplace_type := workplace_type
      base_efficiency := 0
      synergy_efficiency := eff
      description := system_name ++ " - " ++ String.intercalate ", " all_operators
      elite_requirements := elite_req_dict (elite_req_dict [] base_parsed) parsed
      requires_control_center := ccs.map (fun p => ⟨p.1, p.2⟩)
      requires_dormitory := dorms.map (fun p => ⟨p.1, p.2⟩)
      requires_power_station := pows.map (fun p => ⟨p.1, p.2⟩)
      special_conditions := none
      apply_each := rd.apply_each
      priority := rd.priority
      products := rule_products }

/-- Compile every rule of one named system. -/
def compile_system (workplace_type system_name : String) :
    SystemData → Option (List OperatorEfficiency)
  | .flat rules => rules.mapM (compile_flat_rule workplace_type system_name)
  | .structured base_combo product? rules => do
    let base_parsed ← parse_tokens base_combo
    let base_products := product?.getD []
    rules.mapM
      (compile_structured_rule workplace_type system_name base_parsed base_products)

/-- The flat rule list in specification order, before sorting. -/
def expand_rules (spec : RuleSpec) : Option (List OperatorEfficiency) := do
  let nested ← spec.combination_rules.mapM (fun wt => do
    let per_system ← wt.2.mapM (fun sys => compile_system wt.1 sys.1 sys.2)
    pure per_system.flatten)
  pure nested.flatten

/-! ### Stable descending sort (`list.sort(key=..., reverse=True)`) -/

/-- Sort key of a compiled rule: `(priority, synergy_efficiency)`. -/
def ruleKey (r : OperatorEfficiency) : Int × Q :=
  (r.priority, r.synergy_efficiency)

/-- Strict lexicographic order on sort keys (Python tuple `<`). -/
def keyLtb (a b : Int × Q) : Bool :=
  a.1 < b.1 || (a.1 == b.1 && a.2 < b.2)

/-- Insert into a descending-sorted list, after every element with a
strictly greater key and before every element with an equal or smaller key
(the placement `list.sort(reverse=True)`'s stability dictates). -/
def insertDescBy {α : Type} (lt : α → α → Bool) (x : α) : List α → List α
  | [] => [x]
  | y :: ys => if lt x y then y :: insertDescBy lt x ys else x :: y :: ys

/-- Stable descending insertion sort. -/
def sortDescBy {α : Type} (lt : α → α → Bool) (l : List α) : List α :=
  l.foldr (insertDescBy lt) []

/-- `expanded_rules.sort(key=lambda r: (r.priority, r.synergy_efficiency),
reverse=True)`. -/
def sortRules (l : List OperatorEfficiency) : List OperatorEfficiency :=
  sortDescBy (fun a b => keyLtb (ruleKey a) (ruleKey b)) l

/-- `load_efficiency_rules`: expand the nested specification, then sort. -/
def load_efficiency_rules (spec : RuleSpec) : Option (List OperatorEfficiency) :=
  (expand_rules spec).map sortRules

/-! ### Optimizer environment and eligibility checks -/

/-- The `WorkplaceOptimizer` fields read by the allocator: the operator
dict, the compiled rule table, the raw spec's system-name keys per
workplace type, and the quota-boost (`fiammetta_targets`) list. -/
structure Env where
  operators : List (String × Operator)
  efficiency_rules : List OperatorEfficiency
  system_keys : List (String × List String)
  fiammetta_targets : List String
deriving Repr

/-- `load_operators`: build the name-keyed operator dict. -/
def load_operators_dict (ops : List Operator) : List (String × Operator) :=
  ops.foldl (fun d op => dictInsert d op.name op) []

/-- `get_available_operators`: owned operators, dict order. -/
def get_available_operators (env : Env) : List Operator :=
  (env.operators.map (·.2)).filter (·.own)

/-- `op_by_name`: the available operators keyed by name. -/
def op_by_name_of (env : Env) : List (String × Operator) :=
  (get_available_operators env).foldl (fun d op => dictInsert d op.name op) []

/-- `check_elite_requirements`. -/
def check_elite_requirements (operators : List Operator)
    (elite_requirements : List (String × Int)) : Bool :=
  let operator_dict := operators.foldl (fun d op => dictInsert d op.name op) []
  elite_requirements.all (fun p =>
    match dictGet operator_dict p.1 with
    | some op => !(op.elite < p.2)
    | none => true)

/-- `check_control_center_requirements`. -/
def check_control_center_requirements (operators : List (String × Operator))
    (reqs : List ControlCenterRequirement) : Bool :=
  reqs.all (fun req =>
    match dictGet operators req.operator with
    | none => false
    | some op => op.own && !(op.elite < req.elite_required))

/-- `check_dormitory_requirements`. -/
def check_dormitory_requirements (operators : List (String × Operator))
    (reqs : List DormitoryRequirement) : Bool :=
  reqs.all (fun req =>
    match dictGet operators req.operator with
    | none => false
    | some op => op.own && !(op.elite < req.elite_required))

/-- `check_power_station_requirements`. -/
def check_power_station_requirements (operators : List (String × Operator))
    (reqs : List PowerStationRequirement) : Bool :=
  reqs.all (fun req =>
    match dictGet operators req.operator with
    | none => false
    | some op => op.own && !(op.elite < req.elite_required))

/-- `get_workplace_type`. -/
def get_workplace_type (workplace : Workplace) : String :=
  if strIn "trading" workplace.id then "trading_station"
  else if strIn "manufacturing" workplace.id then "manufacturing_station"
  else if strIn "meeting" workplace.id then "meeting_room"
  else if strIn "power" workplace.id then "power_station"
  else ((workplace.id.splitOn "_").headD "") ++ "_" ++ "_station"

/-- `rule_matches_products`. -/
def rule_matches_products (workplace : Workplace) (rule : OperatorEfficiency) : Bool :=
  rule.products.isEmpty || rule.products.contains workplace.current_product

/-- The rules considered for one workplace (type and product filters). -/
def matching_rules (env : Env) (workplace : Workplace) (workplace_type : String) :
    List OperatorEfficiency :=
  env.efficiency_rules.filter (fun r =>
    r.workplace_type == workplace_type && rule_matches_products workplace r)

/-! ### System grouping (`optimize_workplace` lines 468–483) -/

/-- Append a rule to its group, keeping dict insertion order. -/
def groupAdd (gs : List (String × List OperatorEfficiency)) (k : String)
    (r : OperatorEfficiency) : List (String × List OperatorEfficiency) :=
  if gs.any (fun p => p.1 == k) then
    gs.map (fun p => if p.1 == k then (p.1, p.2 ++ [r]) else p)
  else gs ++ [(k, [r])]

/-- The system a rule is attributed to: the first raw-spec system key that
is a substring of the rule's description, defaulting to `"通用"`. -/
def system_name_of (env : Env) (workplace_type : String)
    (r : OperatorEfficiency) : String :=
  match (dictGetD env.system_keys workplace_type []).find?
      (fun k => strIn k r.description) with
  | some k => k
  | none => "通用"

/-- Group the matching rules by system, re-sorting each group by
`(priority, synergy)` descending. -/
def system_groups (env : Env) (workplace_type : String)
    (all_rules : List OperatorEfficiency) : List (String × List OperatorEfficiency) :=
  (all_rules.foldl (fun gs r => groupAdd gs (system_name_of env workplace_type r) r)
      []).map (fun p => (p.1, sortRules p.2))

/-! ### Candidate evaluation -/

/-- `max_usage`: 3 for a quota-boost target at a trading station, else 2. -/
def max_usage_for (env : Env) (workplace_type op_name : String) : Nat :=
  if env.fiammetta_targets.contains op_name && workplace_type == "trading_station"
  then 3 else 2

/-- Per-operator availability failure (system-rule path, lines 504–510). -/
def op_unavailable (env : Env) (workplace_type : String)
    (op_by_name : List (String × Operator)) (used shift_used : List String)
    (usage : List (String × Nat)) (op_name : String) : Bool :=
  (dictGet op_by_name op_name).isNone || used.contains op_name ||
    shift_used.contains op_name ||
    max_usage_for env workplace_type op_name ≤ dictGetD usage op_name 0

inductive CandType where
  | system | genericEach | generic | recEach | recNormal
deriving DecidableEq, Repr, Inhabited

/-- A `best_candidate` record together with its per-slot score. -/
structure Candidate where
  rule : OperatorEfficiency
  required : List String
  efficiency : Q
  slots_used : Nat
  ctype : CandType
deriving DecidableEq, Repr, Inhabited

/-- First-pass evaluation of one named-system rule (lines 494–557). -/
def system_rule_candidate (env : Env) (workplace_type : String)
    (op_by_name : List (String × Operator)) (used shift_used : List String)
    (usage : List (String × Nat)) (remaining_slots : Nat)
    (rule : OperatorEfficiency) : Option (Candidate × Q) :=
  if remaining_slots = 0 then none
  else if rule.operators.any
      (op_unavailable env workplace_type op_by_name used shift_used usage) then none
  else if remaining_slots < rule.operators.length then none
  else
    let op_objs := rule.operators.filterMap (dictGet op_by_name)
    if !check_elite_requirements op_objs rule.elite_requirements then none
    else if !check_control_center_requirements env.operators
        rule.requires_control_center then none
    else if !check_dormitory_requirements env.operators rule.requires_dormitory
      then none
    else if !check_power_station_requirements env.operators
        rule.requires_power_station then none
    else some
      ({ rule := rule, required := rule.operators,
         efficiency := rule.synergy_efficiency,
         slots_used := rule.operators.length, ctype := .system },
       rule.synergy_efficiency.divNat rule.operators.length)

/-- First-pass `apply_each` evaluation of one candidate operator of one
generic rule (lines 566–591). -/
def generic_each_candidate (env : Env) (workplace_type : String)
    (op_by_name : List (String × Operator)) (used shift_used : List String)
    (usage : List (String × Nat)) (remaining_slots : Nat)
    (rule : OperatorEfficiency) (op_name : String) : Option (Candidate × Q) :=
  if remaining_slots = 0 || used.contains op_name ||
      shift_used.contains op_name || (dictGet op_by_name op_name).isNone ||
      max_usage_for env workplace_type op_name ≤ dictGetD usage op_name 0 then
    none
  else
    match dictGet op_by_name op_name with
    | none => none
    | some op_obj =>
      let req_elite := [(op_name, dictGetD rule.elite_requirements op_name 0)]
      if !check_elite_requirements [op_obj] req_elite ||
          !check_control_center_requirements env.operators
            rule.requires_control_center then none
      else some
        ({ rule := rule, required := [op_name],
           efficiency := rule.synergy_efficiency, slots_used := 1,
           ctype := .genericEach }, rule.synergy_efficiency)

/-- First-pass `apply_each` expansion of one generic rule (lines 565–591). -/
def generic_each_candidates (env : Env) (workplace_type : String)
    (op_by_name : List (String × Operator)) (used shift_used : List String)
    (usage : List (String × Nat)) (remaining_slots : Nat)
    (rule : OperatorEfficiency) : List (Candidate × Q) :=
  rule.operators.filterMap (generic_each_candidate env workplace_type
    op_by_name used shift_used usage remaining_slots rule)

/-- First-pass evaluation of one ordinary generic rule (lines 592–619). -/
def generic_normal_candidate (env : Env) (workplace_type : String)
    (op_by_name : List (String × Operator)) (used shift_used : List String)
    (usage : List (String × Nat)) (remaining_slots : Nat)
    (rule : OperatorEfficiency) : Option (Candidate × Q) :=
  if remaining_slots = 0 then none
  else
    let required := rule.operators
    if required.any (fun op_name =>
        (dictGet op_by_name op_name).isNone || used.contains op_name ||
        shift_used.contains op_name ||
        max_usage_for env workplace_type op_name ≤ dictGetD usage op_name 0) ||
      remaining_slots < required.length then none
    else
      let op_objs := required.filterMap (dictGet op_by_name)
      if !check_elite_requirements op_objs rule.elite_requirements ||
          !check_control_center_requirements env.operators
            rule.requires_control_center then none
      else some
        ({ rule := rule, required := required,
           efficiency := rule.synergy_efficiency,
           slots_used := required.length, ctype := .generic },
         rule.synergy_efficiency.divNat required.length)

/-- First pass over the named-system groups, in group order. -/
def system_pass_candidates (env : Env) (workplace : Workplace)
    (op_by_name : List (String × Operator)) (used shift_used : List String)
    (usage : List (String × Nat)) (remaining_slots : Nat) :
    List (Candidate × Q) :=
  let workplace_type := get_workplace_type workplace
  let groups := system_groups env workplace_type
    (matching_rules env workplace workplace_type)
  (groups.filter (fun p => p.1 != "通用")).flatMap (fun p =>
    p.2.filterMap (system_rule_candidate env workplace_type op_by_name used
      shift_used usage remaining_slots))

/-- Evaluation of the `"通用"` group (generic rules, `apply_each` expanded). -/
def generic_pass_candidates (env : Env) (workplace : Workplace)
    (op_by_name : List (String × Operator)) (used shift_used : List String)
    (usage : List (String × Nat)) (remaining_slots : Nat) :
    List (Candidate × Q) :=
  let workplace_type := get_workplace_type workplace
  let groups := system_groups env workplace_type
    (matching_rules env workplace workplace_type)
  (dictGetD groups "通用" []).flatMap (fun rule =>
    if rule.apply_each then
      generic_each_candidates env workplace_type op_by_name used shift_used
        usage remaining_slots rule
    else
      (generic_normal_candidate env workplace_type op_by_name used shift_used
        usage remaining_slots rule).toList)

/-- All first-pass candidates, in the order the source encounters them:
named-system groups first, then the generic group. -/
def first_pass_candidates (env : Env) (workplace : Workplace)
    (op_by_name : List (String × Operator)) (used shift_used : List String)
    (usage : List (String × Nat)) (remaining_slots : Nat) :
    List (Candidate × Q) :=
  system_pass_candidates env workplace op_by_name used shift_used usage
      remaining_slots ++
    generic_pass_candidates env workplace op_by_name used shift_used usage
      remaining_slots

/-- The running `best_candidate` / `best_efficiency` update: a candidate
replaces the current best only when its score is strictly higher. -/
def pickStep (best : Option Candidate × Q) (cs : Candidate × Q) :
    Option Candidate × Q :=
  if best.2 < cs.2 then (some cs.1, cs.2) else best

/-- Fold the candidates in encounter order, starting from
`best_candidate = None`, `best_efficiency = -1`. -/
def pickBest (cands : List (Candidate × Q)) : Option Candidate × Q :=
  cands.foldl pickStep (none, (-1 : Q))

/-! ### Atomic application of the winning candidate -/

/-- The mutable state threaded through one `optimize_workplace` call. -/
structure ApplyState where
  usage : List (String × Nat)
  shift_used : List String
  used : List String
  assigned : List Operator
deriving Repr

/-- One iteration of the application loop (lines 626–630): append the
operator, mark it used, and increment its usage count. -/
def apply_one (op_by_name : List (String × Operator)) (st : ApplyState)
    (op_name : String) : Option ApplyState :=
  match dictGet op_by_name op_name with
  | none => none
  | some op =>
    match incrExisting st.usage op_name with
    | none => none
    | some usage' =>
      some { usage := usage', shift_used := setAdd st.shift_used op_name,
             used := setAdd st.used op_name, assigned := st.assigned ++ [op] }

/-- Apply the winning candidate atomically. -/
def apply_candidate (op_by_name : List (String × Operator)) (st : ApplyState)
    (c : Candidate) : Option ApplyState :=
  c.required.foldlM (apply_one op_by_name) st

/-- Synergy, descriptions and requirement lists accumulated by applications. -/
structure RecResult where
  total_synergy : Q
  applied_combinations : List String
  applied_control_center_reqs : List ControlCenterRequirement
  applied_dormitory_reqs : List DormitoryRequirement
  applied_power_station_reqs : List PowerStationRequirement
deriving Repr

def emptyRecResult : RecResult := ⟨0, [], [], [], []⟩

/-- The recorded description: `apply_each` applications name the chosen
operator in parentheses. -/
def candDescription (c : Candidate) : String :=
  if c.ctype = .genericEach || c.ctype = .recEach then
    c.rule.description ++ "(" ++ String.intercalate ", " c.required ++ ")"
  else c.rule.description

/-- Fold one application into the accumulated result. -/
def recAdd (acc : RecResult) (c : Candidate) : RecResult :=
  { total_synergy := acc.total_synergy + c.efficiency
    applied_combinations := acc.applied_combinations ++ [candDescription c]
    applied_control_center_reqs :=
      acc.applied_control_center_reqs ++ c.rule.requires_control_center
    applied_dormitory_reqs :=
      acc.applied_dormitory_reqs ++ c.rule.requires_dormitory
    applied_power_station_reqs :=
      acc.applied_power_station_reqs ++ c.rule.requires_power_station }

/-! ### Recursive remaining-slot filler (`optimize_workplace_recursive`) -/

/-- `apply_each` evaluation of one candidate operator in the recursive
filler (lines 710–733). -/
def rec_each_candidate (env : Env) (workplace_type : String)
    (op_by_name : List (String × Operator)) (used shift_used : List String)
    (usage : List (String × Nat)) (rule : OperatorEfficiency)
    (op_name : String) : Option (Candidate × Q) :=
  if used.contains op_name || shift_used.contains op_name ||
      (dictGet op_by_name op_name).isNone ||
      max_usage_for env workplace_type op_name ≤ dictGetD usage op_name 0 then
    none
  else
    match dictGet op_by_name op_name with
    | none => none
    | some op_obj =>
      let req_elite := [(op_name, dictGetD rule.elite_requirements op_name 0)]
      if !check_elite_requirements [op_obj] req_elite ||
          !check_control_center_requirements env.operators
            rule.requires_control_center then none
      else some
        ({ rule := rule, required := [op_name],
           efficiency := rule.synergy_efficiency, slots_used := 1,
           ctype := .recEach }, rule.synergy_efficiency)

/-- `apply_each` expansion in the recursive filler (lines 708–733). -/
def rec_each_candidates (env : Env) (workplace_type : String)
    (op_by_name : List (String × Operator)) (used shift_used : List String)
    (usage : List (String × Nat)) (rule : OperatorEfficiency) :
    List (Candidate × Q) :=
  rule.operators.filterMap (rec_each_candidate env workplace_type op_by_name
    used shift_used usage rule)

/-- Ordinary rule evaluation in the recursive filler (lines 734–763). -/
def rec_normal_candidate (env : Env) (workplace_type : String)
    (op_by_name : List (String × Operator)) (used shift_used : List String)
    (usage : List (String × Nat)) (remaining_slots : Nat)
    (rule : OperatorEfficiency) : Option (Candidate × Q) :=
  let required := rule.operators
  if remaining_slots < required.length then none
  else if required.any (fun op_name =>
      used.contains op_name || shift_used.contains op_name ||
      (dictGet op_by_name op_name).isNone ||
      max_usage_for env workplace_type op_name ≤ dictGetD usage op_name 0) then
    none
  else
    let op_objs := required.filterMap (dictGet op_by_name)
    if !check_elite_requirements op_objs rule.elite_requirements ||
        !check_control_center_requirements env.operators
          rule.requires_control_center then none
    else some
      ({ rule := rule, required := required,
         efficiency := rule.synergy_efficiency, slots_used := required.length,
         ctype := .recNormal },
       rule.synergy_efficiency.divNat required.length)

/-- All candidates of one iteration of the recursive filler. -/
def rec_candidates (env : Env) (workplace : Workplace)
    (op_by_name : List (String × Operator)) (used shift_used : List String)
    (usage : List (String × Nat)) (remaining_slots : Nat) :
    List (Candidate × Q) :=
  let workplace_type := get_workplace_type workplace
  (matching_rules env workplace workplace_type).flatMap (fun rule =>
    if rule.apply_each then
      rec_each_candidates env workplace_type op_by_name used shift_used usage rule
    else
      (rec_normal_candidate env workplace_type op_by_name used shift_used usage
        remaining_slots rule).toList)

/-- The `while remaining_slots > 0` loop of `optimize_workplace_recursive`,
written with explicit fuel; `optimize_workplace` supplies fuel equal to the
remaining capacity, which suffices because every applied candidate consumes
at least one slot. -/
def rec_loop (env : Env) (workplace : Workplace)
    (op_by_name : List (String × Operator)) :
    Nat → ApplyState → Nat → RecResult → Option (ApplyState × Nat × RecResult)
  | 0, st, remaining_slots, acc => some (st, remaining_slots, acc)
  | fuel + 1, st, remaining_slots, acc =>
    if remaining_slots = 0 then some (st, remaining_slots, acc)
    else
      match pickBest (rec_candidates env workplace op_by_name st.used
          st.shift_used st.usage remaining_slots) with
      | (some c, best_efficiency) =>
        if 0 < best_efficiency then
          match apply_candidate op_by_name st c with
          | none => none
          | some st' =>
            rec_loop env workplace op_by_name fuel st'
              (remaining_slots - c.slots_used) (recAdd acc c)
        else some (st, remaining_slots, acc)
      | (none, _) => some (st, remaining_slots, acc)

/-! ### `optimize_workplace` -/

/-- The first pass: evaluate both candidate pools and apply the winner (if
any scores above zero) atomically. -/
def first_pass_apply (env : Env) (workplace : Workplace)
    (op_by_name : List (String × Operator)) (st0 : ApplyState)
    (remaining_slots : Nat) : Option (ApplyState × Nat × RecResult) :=
  match pickBest (first_pass_candidates env workplace op_by_name st0.used
      st0.shift_used st0.usage remaining_slots) with
  | (some c, best_efficiency) =>
    if 0 < best_efficiency then
      match apply_candidate op_by_name st0 c with
      | none => none
      | some st' =>
        some (st', remaining_slots - c.slots_used, recAdd emptyRecResult c)
    else some (st0, remaining_slots, emptyRecResult)
  | (none, _) => some (st0, remaining_slots, emptyRecResult)

/-- One allocation call for one workplace: first pass (named systems, then
generic rules) applying at most one winning candidate, then the recursive
filler for the remaining slots. Returns the result together with the
updated usage dict and shift-exclusivity set. -/
def optimize_workplace (env : Env) (workplace : Workplace)
    (operator_usage : List (String × Nat)) (shift_used_names : List String) :
    Option (AssignmentResult × List (String × Nat) × List String) :=
  match first_pass_apply env workplace (op_by_name_of env)
      { usage := operator_usage, shift_used := shift_used_names, used := [],
        assigned := [] } workplace.max_operators with
  | none => none
  | some (st1, remaining1, res1) =>
    match (if 0 < remaining1 then
        rec_loop env workplace (op_by_name_of env) remaining1 st1 remaining1
          emptyRecResult
      else some (st1, remaining1, emptyRecResult)) with
    | none => none
    | some (st2, _, res2) =>
      some
        ({ workplace := workplace
           optimal_operators := st2.assigned
           total_efficiency :=
             workplace.base_efficiency +
               (res1.total_synergy + res2.total_synergy)
           operator_efficiency := res1.total_synergy + res2.total_synergy
           applied_combinations :=
             res1.applied_combinations ++ res2.applied_combinations
           control_center_requirements :=
             res1.applied_control_center_reqs ++
               res2.applied_control_center_reqs
           dormitory_requirements :=
             res1.applied_dormitory_reqs ++ res2.applied_dormitory_reqs
           power_station_requirements :=
             res1.applied_power_station_reqs ++
               res2.applied_power_station_reqs },
         st2.usage, st2.shift_used)

/-! ### Quota-boost selection (`select_fiammetta_targets`) -/

/-- `check_fiammetta_available`: 菲亚梅塔 owned at elite ≥ 2. -/
def check_fiammetta_available (operators : List (String × Operator)) : Bool :=
  match dictGet operators "菲亚梅塔" with
  | none => false
  | some op => op.own && !(op.elite < 2)

/-- Owned-at-elite-≥2 test used by the target selection. -/
def fiammetta_ok (operators : List (String × Operator)) (name : String) : Bool :=
  match dictGet operators name with
  | some op => op.own && !(op.elite < 2)
  | none => false

/-- `select_fiammetta_targets`: fixed preference list, then a stable
descending ranking of trading-rule operators by summed per-slot synergy. -/
def select_fiammetta_targets (operators : List (String × Operator))
    (efficiency_rules : List OperatorEfficiency) : List String :=
  let candidates := ["巫恋", "龙舌兰", "但书"]
  let selected := candidates.filter (fiammetta_ok operators)
  if 3 ≤ selected.length then selected
  else
    let trading_rules :=
      efficiency_rules.filter (fun r => r.workplace_type == "trading_station")
    let op_scores := trading_rules.foldl (fun d rule =>
      rule.operators.foldl (fun d op =>
        if fiammetta_ok operators op && !selected.contains op then
          dictInsert d op (dictGetD d op 0 +
            rule.synergy_efficiency.divNat rule.operators.length)
        else d) d) ([] : List (String × Q))
    let sorted_ops := (sortDescBy (fun a b => a.2 < b.2) op_scores).map (·.1)
    selected ++ sorted_ops.take (3 - selected.length)

/-! ### Cycle scheduler (`get_optimal_assignments`) -/

structure Room where
  operators : List String
  autofill : Bool
  product : Option String := none
deriving DecidableEq, Repr

structure Plan where
  name : String
  description : String
  fiammetta_enable : Bool
  fiammetta_target : String
  trading : List Room
  manufacture : List Room
  control_operators : List String
  dormitory_operators : Option (List String)
  meeting : Room
  power : List Room
deriving DecidableEq, Repr

/-- The per-shift mutable state of the scheduler. -/
structure SchedState where
  usage : List (String × Nat)
  shift_used : List String
  control_operators : List String
  dormitory_operators : List String
deriving Repr

/-- Admission of one collected control-center requirement (lines 875–879):
only if the operator is outside the exclusivity set and under the plain
usage cap; admission consumes a usage unit. `none` models the `KeyError`
of `operator_usage[req.operator] += 1` on an operator that is not a key of
the usage dict. -/
def admit_control (st : SchedState) (req : ControlCenterRequirement) :
    Option SchedState :=
  if !st.shift_used.contains req.operator &&
      dictGetD st.usage req.operator 0 < 2 then
    match incrExisting st.usage req.operator with
    | none => none
    | some usage' =>
      some { st with usage := usage',
                     shift_used := setAdd st.shift_used req.operator,
                     control_operators := setAdd st.control_operators req.operator }
  else some st

/-- Admission of one collected dormitory requirement (lines 880–885). -/
def admit_dormitory (st : SchedState) (req : DormitoryRequirement) :
    Option SchedState :=
  if !st.shift_used.contains req.operator &&
      dictGetD st.usage req.operator 0 < 2 then
    match incrExisting st.usage req.operator with
    | none => none
    | some usage' =>
      some { st with usage := usage',
                     shift_used := setAdd st.shift_used req.operator,
                     dormitory_operators := setAdd st.dormitory_operators req.operator }
  else some st

/-- Optimize one workplace and build its room entry; for trading and
manufacturing stations (`collect`) also fold the collected support
requirements into the control-center and dormitory admission sets. -/
def station_step (env : Env) (collect with_product : Bool) (st : SchedState)
    (workplace : Workplace) : Option (Room × SchedState) :=
  match optimize_workplace env workplace st.usage st.shift_used with
  | none => none
  | some (result, usage', shift_used') =>
    let room : Room :=
      { operators := result.optimal_operators.map (·.name)
        autofill := result.optimal_operators.isEmpty
        product := if with_product then some workplace.current_product else none }
    let st1 := { st with usage := usage', shift_used := shift_used' }
    if collect then
      match result.control_center_requirements.foldlM admit_control st1 with
      | none => none
      | some st2 =>
        match result.dormitory_requirements.foldlM admit_dormitory st2 with
        | none => none
        | some st3 => some (room, st3)
    else some (room, st1)

/-- Run the allocator over a list of workplaces in declaration order. -/
def process_stations (env : Env) (collect with_product : Bool) :
    List Workplace → SchedState → Option (List Room × SchedState)
  | [], st => some ([], st)
  | w :: ws, st =>
    match station_step env collect with_product st w with
    | none => none
    | some (room, st') =>
      match process_stations env collect with_product ws st' with
      | none => none
      | some (rooms, st'') => some (room :: rooms, st'')

/-- Workplace instances, as built once at startup. -/
structure Workplaces where
  trading_stations : List Workplace
  manufacturing_stations : List Workplace
  meeting_room : Workplace
  power_station : List Workplace
deriving Repr

/-- Per-category product requirements (requested quantities, in order). -/
structure ProductRequirements where
  trading_stations : List (String × Nat)
  manufacturing_stations : List (String × Nat)
deriving Repr

/-- Expand a requested-quantity mapping into a flat product sequence. -/
def expand_products (reqs : List (String × Nat)) : List String :=
  reqs.flatMap (fun p => List.replicate p.2 p.1)

/-- Zip the product sequence against the workplace instances; instances
beyond the sequence get the empty product. -/
def set_current_products (ws : List Workplace) (products : List String) :
    List Workplace :=
  ws.mapIdx (fun i w => { w with current_product := products.getD i "" })

/-- One shift (period): reset the exclusivity set, run trading stations,
manufacturing stations (folding support requirements), emit the derived
control-center and dormitory lists, then the meeting room and the power
stations. -/
def build_shift (env : Env) (ws : Workplaces) (shift : Nat)
    (fiammetta_enable : Bool) (usage : List (String × Nat)) :
    Option (Plan × List (String × Nat)) :=
  let current_target :=
    match env.fiammetta_targets with
    | [] => ""
    | ts => ts.getD (shift % ts.length) ""
  let st0 : SchedState :=
    { usage := usage, shift_used := [], control_operators := []
      dormitory_operators := [] }
  match process_stations env true true ws.trading_stations st0 with
  | none => none
  | some (trading_rooms, st1) =>
    match process_stations env true true ws.manufacturing_stations st1 with
    | none => none
    | some (manufacture_rooms, st2) =>
      match station_step env false false st2 ws.meeting_room with
      | none => none
      | some (meeting_room_entry, st3) =>
        match process_stations env false false ws.power_station st3 with
        | none => none
        | some (power_rooms, st4) =>
          some
            ({ name := "第" ++ toString (shift + 1) ++ "班"
               description := "自动优化第" ++ toString (shift + 1) ++ "班"
               fiammetta_enable := fiammetta_enable
               fiammetta_target := current_target
               trading := trading_rooms
               manufacture := manufacture_rooms
               control_operators := st2.control_operators
               dormitory_operators :=
                 if st2.dormitory_operators.isEmpty then none
                 else some st2.dormitory_operators
               meeting := meeting_room_entry
               power := power_rooms }, st4.usage)

/-- Fold the shifts, threading the cross-period usage dict. -/
def run_shifts (env : Env) (ws : Workplaces) (fiammetta_enable : Bool) :
    List Nat → List (String × Nat) → Option (List Plan × List (String × Nat))
  | [], usage => some ([], usage)
  | s :: ss, usage =>
    match build_shift env ws s fiammetta_enable usage with
    | none => none
    | some (plan, usage') =>
      match run_shifts env ws fiammetta_enable ss usage' with
      | none => none
      | some (plans, usage'') => some (plan :: plans, usage'')

/-- The post-compilation pipeline of `get_optimal_assignments`: quota-boost
selection, product assignment, then three shifts. Also returns the final
usage dict. -/
def run_schedule (operator_data : List Operator)
    (rules : List OperatorEfficiency) (system_keys : List (String × List String))
    (ws : Workplaces) (product_requirements : ProductRequirements)
    (fiammetta_enable_cfg : Bool) :
    Option (List Plan × List (String × Nat)) :=
  let operators := load_operators_dict operator_data
  let fiammetta_available :=
    if fiammetta_enable_cfg then check_fiammetta_available operators else false
  let fiammetta_targets :=
    if fiammetta_available then select_fiammetta_targets operators rules else []
  let fiammetta_enable := fiammetta_enable_cfg && !fiammetta_targets.isEmpty
  let env : Env :=
    { operators := operators, efficiency_rules := rules
      system_keys := system_keys, fiammetta_targets := fiammetta_targets }
  let ws' : Workplaces :=
    { ws with
      trading_stations := set_current_products ws.trading_stations
        (expand_products product_requirements.trading_stations)
      manufacturing_stations := set_current_products ws.manufacturing_stations
        (expand_products product_requirements.manufacturing_stations) }
  let usage0 := (get_available_operators env).foldl
    (fun d op => dictInsert d op.name 0) []
  run_shifts env ws' fiammetta_enable [0, 1, 2] usage0

/-- Emission of the control-center and dormitory sets as lists: `e` models
the iteration order Python's `list(set)` uses. -/
def apply_set_order (e : List String → List String) (p : Plan) : Plan :=
  { p with control_operators := e p.control_operators
           dormitory_operators := p.dormitory_operators.map e }

/-- The whole pipeline, parametrized by the set-iteration order `e`. -/
def get_optimal_assignments_with (e : List String → List String)
    (operator_data : List Operator) (spec : RuleSpec) (ws : Workplaces)
    (product_requirements : ProductRequirements) (fiammetta_enable_cfg : Bool) :
    Option (List Plan) :=
  match load_efficiency_rules spec with
  | none => none
  | some rules =>
    let system_keys := spec.combination_rules.map (fun p => (p.1, p.2.map (·.1)))
    match run_schedule operator_data rules system_keys ws product_requirements
        fiammetta_enable_cfg with
    | none => none
    | some (plans, _) => some (plans.map (apply_set_order e))

/-- The pipeline with the insertion-order set enumeration. -/
def get_optimal_assignments (operator_data : List Operator) (spec : RuleSpec)
    (ws : Workplaces) (product_requirements : ProductRequirements)
    (fiammetta_enable_cfg : Bool) : Option (List Plan) :=
  get_optimal_assignments_with id operator_data spec ws product_requirements
    fiammetta_enable_cfg

/-! ### Concrete configurations used by witnesses and counterexamples -/

/-- Catalog entry shorthand. -/
def mkOp (name : String) (elite : Int) (own : Bool) : Operator :=
  { id := name, name := name, elite := elite, level := 1, own := own,
    potential := 1, rarity := 3 }

/-- The raw spec's system-name keys, as `get_optimal_assignments` derives
them. -/
def sysKeys (spec : RuleSpec) : List (String × List String) :=
  spec.combination_rules.map (fun p => (p.1, p.2.map (·.1)))

/-- Build an `Env` from a catalog, spec and target list. -/
def mkEnv (catalog : List Operator) (spec : RuleSpec)
    (targets : List String) : Env :=
  { operators := load_operators_dict catalog
    efficiency_rules := (load_efficiency_rules spec).getD []
    system_keys := sysKeys spec
    fiammetta_targets := targets }

def wTrading1 : Workplace :=
  { id := "trading_1", name := "贸易站1", max_operators := 1,
    base_efficiency := 100 }

def wTrading3 : Workplace :=
  { id := "trading_1", name := "贸易站1", max_operators := 3,
    base_efficiency := 100 }

def wManufacturing1 : Workplace :=
  { id := "manufacturing_1", name := "制造站1", max_operators := 1,
    base_efficiency := 100 }

def wMeeting0 : Workplace :=
  { id := "meeting_room", name := "会客室", max_operators := 0,
    base_efficiency := 100 }

/-- C1 counterexample setup: one named-system trading rule over operator
`A` whose dormitory requirement names `Z`, absent from the catalog. -/
def specC1 : RuleSpec :=
  ⟨[("trading_station",
     [("S", .flat [{ combo := ["A"], efficiency? := some 10,
                     dormitory := ["Z"] }])])]⟩

def catalogC1 : List Operator := [mkOp "A" 0 true]

def envC1 : Env := mkEnv catalogC1 specC1 []

/-- C2 counterexample setup: a named-system rule over `D` (synergy 5) and
a generic `apply_each` rule over `E` (synergy 20). -/
def specC2 : RuleSpec :=
  ⟨[("trading_station",
     [("SD", .flat [{ combo := ["D"], efficiency? := some 5 }]),
      ("G", .flat [{ combo := ["E"], efficiency? := some 20,
                     apply_each := true }])])]⟩

def catalogC2 : List Operator := [mkOp "D" 0 true, mkOp "E" 0 true]

def envC2 : Env := mkEnv catalogC2 specC2 []

/-- C6 counterexample setup: an `apply_each` rule inside a structured
(`base_combo`-style) system; its description carries the system name, so
the first pass groups it as a named system and evaluates the whole listed
group. -/
def specC6 : RuleSpec :=
  ⟨[("trading_station",
     [("S", .structured [] none
        [{ combo := ["A", "B"], efficiency? := some 10,
           apply_each := true }])])]⟩

def catalogC6 : List Operator := [mkOp "A" 0 true, mkOp "B" 0 true]

def envC6 : Env := mkEnv catalogC6 specC6 []

/-- C3 counterexample setup: 巫恋 is the quota-boost target, rules let it
work manufacturing in shifts 1–2 (while `D` takes the trading slot) and
trading in shift 3, reaching a usage count of 3 with non-trading
assignments. -/
def specC3 : RuleSpec :=
  ⟨[("trading_station",
     [("SD", .flat [{ combo := ["D"], efficiency? := some 100 }]),
      ("SA", .flat [{ combo := ["巫恋"], efficiency? := some 10 }])]),
    ("manufacturing_station",
     [("SM", .flat [{ combo := ["巫恋"], efficiency? := some 10 }])])]⟩

def catalogC3 : List Operator :=
  [mkOp "巫恋" 2 true, mkOp "D" 0 true, mkOp "菲亚梅塔" 2 true]

def workplacesC3 : Workplaces :=
  { trading_stations := [wTrading1]
    manufacturing_stations := [wManufacturing1]
    meeting_room := wMeeting0
    power_station := [] }

def noProducts : ProductRequirements := ⟨[], []⟩

/-- C5 failing input: the dormitory requirement of a rule applied through
the recursive filler names `Z`, which is not a key of the usage dict. -/
def specC5 : RuleSpec := specC1

def catalogC5 : List Operator := catalogC1

def workplacesC5 : Workplaces :=
  { trading_stations := [wTrading1]
    manufacturing_stations := []
    meeting_room := wMeeting0
    power_station := [] }

/-- C7 counterexample setup: one applied rule admits two control-center
operators, so the emitted control list has two elements and its order
depends on the set-iteration order. -/
def specC7 : RuleSpec :=
  ⟨[("trading_station",
     [("S", .flat [{ combo := ["A"], efficiency? := some 10,
                     control_center := ["X", "Y"] }])])]⟩

def catalogC7 : List Operator :=
  [mkOp "A" 0 true, mkOp "X" 0 true, mkOp "Y" 0 true]

def workplacesC7 : Workplaces := workplacesC5

/-! ### Properties of the stable descending sort -/

theorem keyLtb_eq_true_iff (a b : Int × Q) :
    keyLtb a b = true ↔ a.1 < b.1 ∨ (a.1 = b.1 ∧ a.2 < b.2) := by
  simp [keyLtb]

theorem keyLtb_eq_false_iff (a b : Int × Q) :
    keyLtb a b = false ↔ ¬(a.1 < b.1 ∨ (a.1 = b.1 ∧ a.2 < b.2)) := by
  rw [← keyLtb_eq_true_iff]
  cases h : keyLtb a b <;> simp

theorem keyLtb_irrefl (a : Int × Q) : keyLtb a a = false := by
  rw [keyLtb_eq_false_iff]
  rintro (h | ⟨_, h⟩)
  · omega
  · exact Q.lt_irrefl a.2 h

theorem keyLtb_asymm (a b : Int × Q) :
    keyLtb a b = true → keyLtb b a = false := by
  rw [keyLtb_eq_true_iff, keyLtb_eq_false_iff]
  rintro (h | ⟨he, h⟩)
  · rintro (hc | ⟨hce, hc⟩) <;> omega
  · rintro (hc | ⟨hce, hc⟩)
    · omega
    · exact Q.lt_asymm h hc

theorem keyLtb_negtrans (a b c : Int × Q) :
    keyLtb a b = false → keyLtb b c = false → keyLtb a c = false := by
  rw [keyLtb_eq_false_iff, keyLtb_eq_false_iff, keyLtb_eq_false_iff]
  intro hab hbc
  push_neg at hab hbc ⊢
  obtain ⟨hab1, hab2⟩ := hab
  obtain ⟨hbc1, hbc2⟩ := hbc
  refine ⟨by omega, fun hac => ?_⟩
  have h1 : a.1 = b.1 := by omega
  have h2 : b.1 = c.1 := by omega
  exact Q.not_lt_trans (hab2 h1) (hbc2 h2)

theorem keyLtb_eq_false_of_eq {a b : Int × Q} (h : a = b) :
    keyLtb a b = false := h ▸ keyLtb_irrefl a

theorem insertDescBy_perm {α : Type} (lt : α → α → Bool) (x : α)
    (l : List α) : (insertDescBy lt x l).Perm (x :: l) := by
  induction l with
  | nil => simp [insertDescBy]
  | cons y ys ih =>
    by_cases h : lt x y
    · simpa [insertDescBy, h] using (ih.cons y).trans (List.Perm.swap x y ys)
    · simp [insertDescBy, h]

theorem sortDescBy_perm {α : Type} (lt : α → α → Bool) (l : List α) :
    (sortDescBy lt l).Perm l := by
  induction l with
  | nil => simp [sortDescBy]
  | cons x xs ih =>
    exact (insertDescBy_perm lt x (sortDescBy lt xs)).trans (ih.cons x)

theorem insertDescBy_pairwise {α : Type} (lt : α → α → Bool)
    (hasymm : ∀ a b, lt a b = true → lt b a = false)
    (hnegtrans : ∀ a b c, lt a b = false → lt b c = false → lt a c = false)
    (x : α) (l : List α) (hl : l.Pairwise (fun a b => lt a b = false)) :
    (insertDescBy lt x l).Pairwise (fun a b => lt a b = false) := by
  induction l with
  | nil => simp [insertDescBy]
  | cons y ys ih =>
    rcases List.pairwise_cons.mp hl with ⟨hy, hys⟩
    by_cases h : lt x y
    · rw [insertDescBy, if_pos h]
      refine List.pairwise_cons.mpr ⟨?_, ih hys⟩
      intro z hz
      rcases List.mem_cons.mp ((insertDescBy_perm lt x ys).mem_iff.mp hz) with
        hz | hz
      · exact hz ▸ hasymm x y h
      · exact hy z hz
    · rw [insertDescBy, if_neg h]
      refine List.pairwise_cons.mpr ⟨?_, hl⟩
      intro z hz
      rcases List.mem_cons.mp hz with hz | hz
      · exact hz ▸ Bool.of_not_eq_true h
      · exact hnegtrans x y z (Bool.of_not_eq_true h) (hy z hz)

theorem sortDescBy_pairwise {α : Type} (lt : α → α → Bool)
    (hasymm : ∀ a b, lt a b = true → lt b a = false)
    (hnegtrans : ∀ a b c, lt a b = false → lt b c = false → lt a c = false)
    (l : List α) :
    (sortDescBy lt l).Pairwise (fun a b => lt a b = false) := by
  induction l with
  | nil => simp [sortDescBy]
  | cons x xs ih => exact insertDescBy_pairwise lt hasymm hnegtrans x _ ih

theorem filter_insertDescBy_neg {α : Type} (lt : α → α → Bool) (p : α → Bool)
    (x : α) (hpx : p x = false) (l : List α) :
    (insertDescBy lt x l).filter p = l.filter p := by
  induction l with
  | nil => simp [insertDescBy, hpx]
  | cons y ys ih =>
    by_cases h : lt x y
    · by_cases hpy : p y <;>
        simp [insertDescBy, h, List.filter_cons, hpy, ih]
    · simp [insertDescBy, h, List.filter_cons, hpx]

theorem filter_insertDescBy_pos {α : Type} (lt : α → α → Bool) (p : α → Bool)
    (x : α) (hpx : p x = true)
    (hx : ∀ y, p y = true → lt x y = false) (l : List α) :
    (insertDescBy lt x l).filter p = x :: l.filter p := by
  induction l with
  | nil => simp [insertDescBy, hpx]
  | cons y ys ih =>
    by_cases h : lt x y
    · have hpy : p y = false := by
        by_contra hc
        have := hx y (Bool.of_not_eq_false hc)
        simp [this] at h
      simp [insertDescBy, h, List.filter_cons, hpy, ih]
    · simp [insertDescBy, h, List.filter_cons, hpx]

theorem sortDescBy_cons {α : Type} (lt : α → α → Bool) (x : α) (xs : List α) :
    sortDescBy lt (x :: xs) = insertDescBy lt x (sortDescBy lt xs) := rfl

theorem filter_sortDescBy {α : Type} (lt : α → α → Bool) (p : α → Bool)
    (hcompat : ∀ a b, p a = true → p b = true → lt a b = false) (l : List α) :
    (sortDescBy lt l).filter p = l.filter p := by
  induction l with
  | nil => simp [sortDescBy]
  | cons x xs ih =>
    by_cases hpx : p x = true
    · rw [sortDescBy_cons,
        filter_insertDescBy_pos lt p x hpx (fun y hy => hcompat x y hpx hy),
        List.filter_cons, if_pos hpx, ih]
    · rw [sortDescBy_cons,
        filter_insertDescBy_neg lt p x (Bool.of_not_eq_true hpx),
        List.filter_cons, if_neg hpx, ih]

/-- C8: the rule compiler produces the expanded rule list sorted by
`(priority, synergy)` descending, as a permutation of the
specification-order list, and the sort is stable: rules with any fixed
`(priority, synergy)` key keep their specification-order relative order. -/
theorem C8_compiler_sort_stable (spec : RuleSpec)
    (l rules : List OperatorEfficiency)
    (h1 : expand_rules spec = some l)
    (h2 : load_efficiency_rules spec = some rules) :
    rules.Perm l ∧
    rules.Pairwise (fun a b => keyLtb (ruleKey a) (ruleKey b) = false) ∧
    ∀ k : Int × Q,
      rules.filter (fun r => ruleKey r == k) =
        l.filter (fun r => ruleKey r == k) := by
  have hr : rules = sortRules l := by
    rw [load_efficiency_rules, h1, Option.map_some'] at h2
    exact (Option.some.inj h2).symm
  subst hr
  refine ⟨sortDescBy_perm _ l, ?_, ?_⟩
  · exact sortDescBy_pairwise
      (fun a b => keyLtb (ruleKey a) (ruleKey b))
      (fun a b => keyLtb_asymm (ruleKey a) (ruleKey b))
      (fun a b c => keyLtb_negtrans (ruleKey a) (ruleKey b) (ruleKey c)) l
  · intro k
    refine filter_sortDescBy (fun a b => keyLtb (ruleKey a) (ruleKey b))
      (fun r => ruleKey r == k) (fun a b ha hb => ?_) l
    have ha' : ruleKey a = k := by simpa using ha
    have hb' : ruleKey b = k := by simpa using hb
    exact keyLtb_eq_false_of_eq (ha'.trans hb'.symm)

/-- Witness for C8 at the concrete specification `specC2`. -/
theorem C8_compiler_sort_stable_witness :
    ((load_efficiency_rules specC2).getD []).Perm
      ((expand_rules specC2).getD []) :=
  (C8_compiler_sort_stable specC2 ((expand_rules specC2).getD [])
    ((load_efficiency_rules specC2).getD []) rfl rfl).1

/-! ### Characterization of the greedy selection -/

theorem pickStep_foldl_spec (l : List (Candidate × Q)) :
    ∀ (b₀ : Option Candidate) (e₀ : Q),
      (l.foldl pickStep (b₀, e₀) = (b₀, e₀) ∧ ∀ p ∈ l, ¬ e₀ < p.2) ∨
      (∃ l1 c s l2, l = l1 ++ (c, s) :: l2 ∧
        l.foldl pickStep (b₀, e₀) = (some c, s) ∧ e₀ < s ∧
        (∀ p ∈ l1, p.2 < s) ∧ (∀ p ∈ l2, ¬ s < p.2)) := by
  induction l with
  | nil => exact fun b₀ e₀ => Or.inl ⟨rfl, by simp⟩
  | cons q rest ih =>
    intro b₀ e₀
    obtain ⟨c0, s0⟩ := q
    by_cases h : e₀ < s0
    · have hstep : pickStep (b₀, e₀) (c0, s0) = (some c0, s0) := by
        simp [pickStep, h]
      rcases ih (some c0) s0 with ⟨heq, hle⟩ | ⟨l1, c, s, l2, hsplit, hres, hlt, hl1, hl2⟩
      · refine Or.inr ⟨[], c0, s0, rest, by simp, ?_, h, by simp, hle⟩
        simpa [hstep] using heq
      · refine Or.inr ⟨(c0, s0) :: l1, c, s, l2, by simp [hsplit], ?_,
          Q.lt_trans h hlt, ?_, hl2⟩
        · simpa [hstep] using hres
        · intro p hp
          rcases List.mem_cons.mp hp with hp | hp
          · simpa [hp] using hlt
          · exact hl1 p hp
    · have hstep : pickStep (b₀, e₀) (c0, s0) = (b₀, e₀) := by
        simp [pickStep, h]
      rcases ih b₀ e₀ with ⟨heq, hle⟩ | ⟨l1, c, s, l2, hsplit, hres, hlt, hl1, hl2⟩
      · refine Or.inl ⟨by simpa [hstep] using heq, ?_⟩
        intro p hp
        rcases List.mem_cons.mp hp with hp | hp
        · simpa [hp] using h
        · exact hle p hp
      · refine Or.inr ⟨(c0, s0) :: l1, c, s, l2, by simp [hsplit], ?_, hlt, ?_, hl2⟩
        · simpa [hstep] using hres
        · intro p hp
          rcases List.mem_cons.mp hp with hp | hp
          · simp only [hp]
            exact Q.lt_of_not_lt_of_lt h hlt
          · exact hl1 p hp

/-- The chosen best candidate is the earliest candidate attaining the
maximum score, and that score beats the `-1` sentinel. -/
theorem pickBest_eq_some (l : List (Candidate × Q)) (c : Candidate)
    (h : (pickBest l).1 = some c) :
    ∃ l1 s l2, l = l1 ++ (c, s) :: l2 ∧ (pickBest l).2 = s ∧ (-1 : Q) < s ∧
      (∀ p ∈ l1, p.2 < s) ∧ (∀ p ∈ l2, ¬ s < p.2) := by
  rcases pickStep_foldl_spec l none (-1) with ⟨heq, _⟩ |
      ⟨l1, c', s, l2, hsplit, hres, hlt, hl1, hl2⟩
  · rw [pickBest, heq] at h
    exact Option.noConfusion h
  · have hc : c' = c := by
      rw [pickBest, hres] at h
      exact Option.some.inj h
    subst hc
    exact ⟨l1, s, l2, hsplit, by rw [pickBest, hres], hlt, hl1, hl2⟩

/-! ### Inversion of the candidate generators -/

theorem system_rule_candidate_inv {env : Env} {wt : String}
    {obn : List (String × Operator)} {used su : List String}
    {usage : List (String × Nat)} {rem : Nat} {rule : OperatorEfficiency}
    {p : Candidate × Q}
    (h : system_rule_candidate env wt obn used su usage rem rule = some p) :
    p.1.rule = rule ∧ p.1.required = rule.operators ∧
    p.1.efficiency = rule.synergy_efficiency ∧
    p.1.slots_used = rule.operators.length ∧ p.1.ctype = CandType.system ∧
    p.2 = rule.synergy_efficiency.divNat rule.operators.length ∧
    (∀ op_name ∈ rule.operators,
      (dictGet obn op_name).isSome = true ∧ used.contains op_name = false ∧
      su.contains op_name = false ∧
      dictGetD usage op_name 0 < max_usage_for env wt op_name) ∧
    check_control_center_requirements env.operators
      rule.requires_control_center = true ∧
    check_dormitory_requirements env.operators rule.requires_dormitory = true ∧
    check_power_station_requirements env.operators
      rule.requires_power_station = true ∧
    rule.operators.length ≤ rem ∧ rem ≠ 0 := by
  rw [system_rule_candidate] at h
  by_cases h1 : rem = 0
  · rw [if_pos h1] at h; exact Option.noConfusion h
  rw [if_neg h1] at h
  by_cases h2 : rule.operators.any (op_unavailable env wt obn used su usage) = true
  · rw [if_pos h2] at h; exact Option.noConfusion h
  rw [if_neg h2] at h
  by_cases h3 : rem < rule.operators.length
  · rw [if_pos h3] at h; exact Option.noConfusion h
  rw [if_neg h3] at h
  simp only at h
  by_cases h4 : check_elite_requirements
      (rule.operators.filterMap (dictGet obn)) rule.elite_requirements
  · rw [if_neg (by simp [h4])] at h
    by_cases h5 : check_control_center_requirements env.operators
        rule.requires_control_center
    · rw [if_neg (by simp [h5])] at h
      by_cases h6 : check_dormitory_requirements env.operators
          rule.requires_dormitory
      · rw [if_neg (by simp [h6])] at h
        by_cases h7 : check_power_station_requirements env.operators
            rule.requires_power_station
        · rw [if_neg (by simp [h7])] at h
          obtain rfl := (Option.some.inj h).symm
          refine ⟨rfl, rfl, rfl, rfl, rfl, rfl, ?_, h5, h6, h7, not_lt.mp h3, h1⟩
          intro op_name hop
          have hav := (List.any_eq_false.mp (Bool.eq_false_iff.mpr h2))
            op_name hop
          simp only [op_unavailable, Bool.not_eq_true, Bool.or_eq_false_iff,
            decide_eq_false_iff_not, not_le] at hav
          obtain ⟨⟨⟨hn, hu⟩, hs⟩, hc⟩ := hav
          refine ⟨?_, hu, hs, hc⟩
          rcases hd : dictGet obn op_name with _ | v
          · rw [hd] at hn; simp at hn
          · simp [hd]
        · rw [if_pos (by simp [h7])] at h; exact Option.noConfusion h
      · rw [if_pos (by simp [h6])] at h; exact Option.noConfusion h
    · rw [if_pos (by simp [h5])] at h; exact Option.noConfusion h
  · rw [if_pos (by simp [h4])] at h; exact Option.noConfusion h

theorem generic_each_candidate_inv {env : Env} {wt : String}
    {obn : List (String × Operator)} {used su : List String}
    {usage : List (String × Nat)} {rem : Nat} {rule : OperatorEfficiency}
    {op_name : String} {p : Candidate × Q}
    (h : generic_each_candidate env wt obn used su usage rem rule op_name =
      some p) :
    p.1.rule = rule ∧ p.1.required = [op_name] ∧
    p.1.efficiency = rule.synergy_efficiency ∧ p.1.slots_used = 1 ∧
    p.1.ctype = CandType.genericEach ∧ p.2 = rule.synergy_efficiency ∧
    rem ≠ 0 ∧ used.contains op_name = false ∧ su.contains op_name = false ∧
    (dictGet obn op_name).isSome = true ∧
    dictGetD usage op_name 0 < max_usage_for env wt op_name ∧
    check_control_center_requirements env.operators
      rule.requires_control_center = true := by
  rw [generic_each_candidate] at h
  by_cases h1 : rem = 0 || used.contains op_name || su.contains op_name ||
      (dictGet obn op_name).isNone ||
      max_usage_for env wt op_name ≤ dictGetD usage op_name 0
  · rw [if_pos h1] at h; exact Option.noConfusion h
  · rw [if_neg h1] at h
    simp only [Bool.or_eq_true, decide_eq_true_eq, not_or,
      Bool.not_eq_true] at h1
    obtain ⟨⟨⟨⟨hrem, hused⟩, hsu⟩, hnone⟩, hcap⟩ := h1
    rcases hobn : dictGet obn op_name with _ | op_obj
    · rw [hobn] at h; exact Option.noConfusion h
    · rw [hobn] at h
      simp only at h
      by_cases h2 : check_elite_requirements [op_obj]
          [(op_name, dictGetD rule.elite_requirements op_name 0)] = true ∧
          check_control_center_requirements env.operators
            rule.requires_control_center = true
      · rw [if_neg (by simp [h2.1, h2.2])] at h
        obtain rfl := (Option.some.inj h).symm
        refine ⟨rfl, rfl, rfl, rfl, rfl, rfl, by simpa using hrem, hused, hsu,
          by simp [hobn], ?_, h2.2⟩
        simpa [not_le] using hcap
      · rw [if_pos ?_] at h
        · exact Option.noConfusion h
        · rcases Decidable.not_and_iff_or_not.mp h2 with hc | hc <;>
            simp [Bool.not_eq_true] at hc <;> simp [hc]

theorem generic_normal_candidate_inv {env : Env} {wt : String}
    {obn : List (String × Operator)} {used su : List String}
    {usage : List (String × Nat)} {rem : Nat} {rule : OperatorEfficiency}
    {p : Candidate × Q}
    (h : generic_normal_candidate env wt obn used su usage rem rule = some p) :
    p.1.rule = rule ∧ p.1.required = rule.operators ∧
    p.1.efficiency = rule.synergy_efficiency ∧
    p.1.slots_used = rule.operators.length ∧ p.1.ctype = CandType.generic ∧
    p.2 = rule.synergy_efficiency.divNat rule.operators.length ∧
    (∀ op_name ∈ rule.operators,
      (dictGet obn op_name).isSome = true ∧ used.contains op_name = false ∧
      su.contains op_name = false ∧
      dictGetD usage op_name 0 < max_usage_for env wt op_name) ∧
    check_control_center_requirements env.operators
      rule.requires_control_center = true ∧
    rule.operators.length ≤ rem ∧ rem ≠ 0 := by
  rw [generic_normal_candidate] at h
  by_cases h1 : rem = 0
  · rw [if_pos h1] at h; exact Option.noConfusion h
  rw [if_neg h1] at h
  simp only at h
  by_cases h2 : (rule.operators.any (fun op_name =>
      (dictGet obn op_name).isNone || used.contains op_name ||
      su.contains op_name ||
      max_usage_for env wt op_name ≤ dictGetD usage op_name 0) ||
      decide (rem < rule.operators.length)) = true
  · rw [if_pos h2] at h; exact Option.noConfusion h
  · rw [if_neg h2] at h
    simp only [Bool.or_eq_true, not_or, Bool.not_eq_true] at h2
    obtain ⟨hany, hlen⟩ := h2
    by_cases h3 : check_elite_requirements
        (rule.operators.filterMap (dictGet obn)) rule.elite_requirements = true ∧
        check_control_center_requirements env.operators
          rule.requires_control_center = true
    · rw [if_neg (by simp [h3.1, h3.2])] at h
      obtain rfl := (Option.some.inj h).symm
      refine ⟨rfl, rfl, rfl, rfl, rfl, rfl, ?_, h3.2, by simpa using hlen, h1⟩
      intro op_name hop
      have hav := (List.any_eq_false.mp hany) op_name hop
      simp only [Bool.not_eq_true, Bool.or_eq_false_iff,
        decide_eq_false_iff_not, not_le] at hav
      obtain ⟨⟨⟨hn, hu⟩, hs⟩, hc⟩ := hav
      refine ⟨?_, hu, hs, hc⟩
      rcases hd : dictGet obn op_name with _ | v
      · rw [hd] at hn; simp at hn
      · simp [hd]
    · rw [if_pos ?_] at h
      · exact Option.noConfusion h
      · rcases Decidable.not_and_iff_or_not.mp h3 with hc | hc <;>
          simp [Bool.not_eq_true] at hc <;> simp [hc]

theorem rec_each_candidate_inv {env : Env} {wt : String}
    {obn : List (String × Operator)} {used su : List String}
    {usage : List (String × Nat)} {rule : OperatorEfficiency}
    {op_name : String} {p : Candidate × Q}
    (h : rec_each_candidate env wt obn used su usage rule op_name = some p) :
    p.1.rule = rule ∧ p.1.required = [op_name] ∧
    p.1.efficiency = rule.synergy_efficiency ∧ p.1.slots_used = 1 ∧
    p.1.ctype = CandType.recEach ∧ p.2 = rule.synergy_efficiency ∧
    used.contains op_name = false ∧ su.contains op_name = false ∧
    (dictGet obn op_name).isSome = true ∧
    dictGetD usage op_name 0 < max_usage_for env wt op_name ∧
    check_control_center_requirements env.operators
      rule.requires_control_center = true := by
  rw [rec_each_candidate] at h
  by_cases h1 : used.contains op_name || su.contains op_name ||
      (dictGet obn op_name).isNone ||
      max_usage_for env wt op_name ≤ dictGetD usage op_name 0
  · rw [if_pos h1] at h; exact Option.noConfusion h
  · rw [if_neg h1] at h
    simp only [Bool.or_eq_true, decide_eq_true_eq, not_or,
      Bool.not_eq_true] at h1
    obtain ⟨⟨⟨hused, hsu⟩, hnone⟩, hcap⟩ := h1
    rcases hobn : dictGet obn op_name with _ | op_obj
    · rw [hobn] at h; exact Option.noConfusion h
    · rw [hobn] at h
      simp only at h
      by_cases h2 : check_elite_requirements [op_obj]
          [(op_name, dictGetD rule.elite_requirements op_name 0)] = true ∧
          check_control_center_requirements env.operators
            rule.requires_control_center = true
      · rw [if_neg (by simp [h2.1, h2.2])] at h
        obtain rfl := (Option.some.inj h).symm
        refine ⟨rfl, rfl, rfl, rfl, rfl, rfl, hused, hsu, by simp [hobn], ?_,
          h2.2⟩
        simpa [not_le] using hcap
      · rw [if_pos ?_] at h
        · exact Option.noConfusion h
        · rcases Decidable.not_and_iff_or_not.mp h2 with hc | hc <;>
            simp [Bool.not_eq_true] at hc <;> simp [hc]

theorem rec_normal_candidate_inv {env : Env} {wt : String}
    {obn : List (String × Operator)} {used su : List String}
    {usage : List (String × Nat)} {rem : Nat} {rule : OperatorEfficiency}
    {p : Candidate × Q}
    (h : rec_normal_candidate env wt obn used su usage rem rule = some p) :
    p.1.rule = rule ∧ p.1.required = rule.operators ∧
    p.1.efficiency = rule.synergy_efficiency ∧
    p.1.slots_used = rule.operators.length ∧ p.1.ctype = CandType.recNormal ∧
    p.2 = rule.synergy_efficiency.divNat rule.operators.length ∧
    (∀ op_name ∈ rule.operators,
      (dictGet obn op_name).isSome = true ∧ used.contains op_name = false ∧
      su.contains op_name = false ∧
      dictGetD usage op_name 0 < max_usage_for env wt op_name) ∧
    check_control_center_requirements env.operators
      rule.requires_control_center = true ∧
    rule.operators.length ≤ rem := by
  rw [rec_normal_candidate] at h
  simp only at h
  by_cases h1 : rem < rule.operators.length
  · rw [if_pos h1] at h; exact Option.noConfusion h
  rw [if_neg h1] at h
  by_cases h2 : rule.operators.any (fun op_name =>
      used.contains op_name || su.contains op_name ||
      (dictGet obn op_name).isNone ||
      max_usage_for env wt op_name ≤ dictGetD usage op_name 0) = true
  · rw [if_pos h2] at h; exact Option.noConfusion h
  · rw [if_neg h2] at h
    have hany := Bool.eq_false_iff.mpr h2
    by_cases h3 : check_elite_requirements
        (rule.operators.filterMap (dictGet obn)) rule.elite_requirements = true ∧
        check_control_center_requirements env.operators
          rule.requires_control_center = true
    · rw [if_neg (by simp [h3.1, h3.2])] at h
      obtain rfl := (Option.some.inj h).symm
      refine ⟨rfl, rfl, rfl, rfl, rfl, rfl, ?_, h3.2, not_lt.mp h1⟩
      intro op_name hop
      have hav := (List.any_eq_false.mp hany) op_name hop
      simp only [Bool.not_eq_true, Bool.or_eq_false_iff,
        decide_eq_false_iff_not, not_le] at hav
      obtain ⟨⟨⟨hu, hs⟩, hn⟩, hc⟩ := hav
      refine ⟨?_, hu, hs, hc⟩
      rcases hd : dictGet obn op_name with _ | v
      · rw [hd] at hn; simp at hn
      · simp [hd]
    · rw [if_pos ?_] at h
      · exact Option.noConfusion h
      · rcases Decidable.not_and_iff_or_not.mp h3 with hc | hc <;>
          simp [Bool.not_eq_true] at hc <;> simp [hc]

/-! ### Origin of candidates: every candidate comes from a compiled rule -/

theorem mem_groupAdd {gs : List (String × List OperatorEfficiency)}
    {k : String} {r : OperatorEfficiency} {g : String × List OperatorEfficiency}
    (hg : g ∈ groupAdd gs k r) {r' : OperatorEfficiency} (hr : r' ∈ g.2) :
    (∃ g0 ∈ gs, r' ∈ g0.2) ∨ r' = r := by
  rw [groupAdd] at hg
  by_cases h : gs.any (fun p => p.1 == k)
  · rw [if_pos h] at hg
    obtain ⟨g0, hg0, hge⟩ := List.mem_map.mp hg
    by_cases he : g0.1 == k
    · rw [if_pos he] at hge
      rw [← hge] at hr
      rcases List.mem_append.mp hr with hr | hr
      · exact Or.inl ⟨g0, hg0, hr⟩
      · exact Or.inr (by simpa using hr)
    · rw [if_neg he] at hge
      exact Or.inl ⟨g0, hg0, hge ▸ hr⟩
  · rw [if_neg h] at hg
    rcases List.mem_append.mp hg with hg | hg
    · exact Or.inl ⟨g, hg, hr⟩
    · have : g = (k, [r]) := by simpa using hg
      exact Or.inr (by simpa [this] using hr)

theorem mem_fold_groups (f : OperatorEfficiency → String)
    (l : List OperatorEfficiency) :
    ∀ (gs0 : List (String × List OperatorEfficiency))
      (g : String × List OperatorEfficiency),
      g ∈ l.foldl (fun gs r => groupAdd gs (f r) r) gs0 →
      ∀ r' ∈ g.2, (∃ g0 ∈ gs0, r' ∈ g0.2) ∨ r' ∈ l := by
  induction l with
  | nil =>
    intro gs0 g hg r' hr
    exact Or.inl ⟨g, hg, hr⟩
  | cons x xs ih =>
    intro gs0 g hg r' hr
    rcases ih (groupAdd gs0 (f x) x) g hg r' hr with ⟨g0, hg0, hr0⟩ | hmem
    · rcases mem_groupAdd hg0 hr0 with ⟨g1, hg1, hr1⟩ | he
      · exact Or.inl ⟨g1, hg1, hr1⟩
      · exact Or.inr (by simp [he])
    · exact Or.inr (List.mem_cons_of_mem x hmem)

theorem mem_system_groups {env : Env} {wt : String}
    {all_rules : List OperatorEfficiency} {g : String × List OperatorEfficiency}
    (hg : g ∈ system_groups env wt all_rules) {r : OperatorEfficiency}
    (hr : r ∈ g.2) : r ∈ all_rules := by
  rw [system_groups] at hg
  obtain ⟨g0, hg0, hge⟩ := List.mem_map.mp hg
  have hr0 : r ∈ g0.2 := by
    have h2 : g.2 = sortRules g0.2 := by rw [← hge]
    exact (sortDescBy_perm _ g0.2).mem_iff.mp (h2 ▸ hr)
  rcases mem_fold_groups (system_name_of env wt) all_rules [] g0 hg0 r hr0 with
    ⟨g1, hg1, _⟩ | h
  · simp at hg1
  · exact h

theorem mem_matching_rules {env : Env} {workplace : Workplace} {wt : String}
    {r : OperatorEfficiency} (h : r ∈ matching_rules env workplace wt) :
    r ∈ env.efficiency_rules := (List.mem_filter.mp h).1

theorem mem_system_pass_candidates {env : Env} {workplace : Workplace}
    {obn : List (String × Operator)} {used su : List String}
    {usage : List (String × Nat)} {rem : Nat} {p : Candidate × Q}
    (hp : p ∈ system_pass_candidates env workplace obn used su usage rem) :
    ∃ rule ∈ env.efficiency_rules,
      system_rule_candidate env (get_workplace_type workplace) obn used su
        usage rem rule = some p := by
  rw [system_pass_candidates] at hp
  obtain ⟨grp, hgrp, hp2⟩ := List.mem_flatMap.mp hp
  obtain ⟨rule, hrule, heq⟩ := List.mem_filterMap.mp hp2
  have hgrp2 := (List.mem_filter.mp hgrp).1
  exact ⟨rule, mem_matching_rules (mem_system_groups hgrp2 hrule), heq⟩

theorem dictGet_mem {α : Type} {d : List (String × α)} {k : String} {v : α}
    (h : dictGet d k = some v) : ∃ pr ∈ d, pr.2 = v := by
  rw [dictGet] at h
  rcases hf : d.find? (fun p => p.1 == k) with _ | pr
  · rw [hf] at h; simp at h
  · rw [hf] at h
    simp only [Option.map_some'] at h
    exact ⟨pr, List.mem_of_find?_eq_some hf, Option.some.inj h⟩

theorem mem_generic_pass_candidates {env : Env} {workplace : Workplace}
    {obn : List (String × Operator)} {used su : List String}
    {usage : List (String × Nat)} {rem : Nat} {p : Candidate × Q}
    (hp : p ∈ generic_pass_candidates env workplace obn used su usage rem) :
    ∃ rule ∈ env.efficiency_rules,
      (rule.apply_each = true ∧ ∃ op_name ∈ rule.operators,
        generic_each_candidate env (get_workplace_type workplace) obn used su
          usage rem rule op_name = some p) ∨
      (rule.apply_each = false ∧
        generic_normal_candidate env (get_workplace_type workplace) obn used su
          usage rem rule = some p) := by
  simp only [generic_pass_candidates] at hp
  obtain ⟨rule, hrule, hp2⟩ := List.mem_flatMap.mp hp
  have hmem : rule ∈ env.efficiency_rules := by
    rw [dictGetD] at hrule
    rcases hd : dictGet (system_groups env (get_workplace_type workplace)
        (matching_rules env workplace (get_workplace_type workplace))) "通用" with
      _ | rs
    · rw [hd] at hrule; simp at hrule
    · rw [hd] at hrule
      simp only [Option.getD_some] at hrule
      obtain ⟨pr, hpr, hpr2⟩ := dictGet_mem hd
      exact mem_matching_rules (mem_system_groups hpr (hpr2 ▸ hrule))
  refine ⟨rule, hmem, ?_⟩
  by_cases ha : rule.apply_each
  · rw [if_pos ha] at hp2
    rw [generic_each_candidates] at hp2
    obtain ⟨op_name, hop, heq⟩ := List.mem_filterMap.mp hp2
    exact Or.inl ⟨ha, op_name, hop, heq⟩
  · rw [if_neg ha] at hp2
    refine Or.inr ⟨Bool.eq_false_iff.mpr ha, ?_⟩
    rcases hn : generic_normal_candidate env (get_workplace_type workplace)
        obn used su usage rem rule with _ | q
    · rw [hn] at hp2; simp at hp2
    · rw [hn] at hp2
      simp only [Option.toList_some, List.mem_singleton] at hp2
      rw [hp2]

theorem mem_rec_candidates {env : Env} {workplace : Workplace}
    {obn : List (String × Operator)} {used su : List String}
    {usage : List (String × Nat)} {rem : Nat} {p : Candidate × Q}
    (hp : p ∈ rec_candidates env workplace obn used su usage rem) :
    ∃ rule ∈ env.efficiency_rules,
      (rule.apply_each = true ∧ ∃ op_name ∈ rule.operators,
        rec_each_candidate env (get_workplace_type workplace) obn used su usage
          rule op_name = some p) ∨
      (rule.apply_each = false ∧
        rec_normal_candidate env (get_workplace_type workplace) obn used su
          usage rem rule = some p) := by
  simp only [rec_candidates] at hp
  obtain ⟨rule, hrule, hp2⟩ := List.mem_flatMap.mp hp
  refine ⟨rule, mem_matching_rules hrule, ?_⟩
  by_cases ha : rule.apply_each
  · rw [if_pos ha] at hp2
    rw [rec_each_candidates] at hp2
    obtain ⟨op_name, hop, heq⟩ := List.mem_filterMap.mp hp2
    exact Or.inl ⟨ha, op_name, hop, heq⟩
  · rw [if_neg ha] at hp2
    refine Or.inr ⟨Bool.eq_false_iff.mpr ha, ?_⟩
    rcases hn : rec_normal_candidate env (get_workplace_type workplace) obn
        used su usage rem rule with _ | q
    · rw [hn] at hp2; simp at hp2
    · rw [hn] at hp2
      simp only [Option.toList_some, List.mem_singleton] at hp2
      rw [hp2]

/-! ### C1: which support-requirement classes each path checks -/

/-- C1 (amended): every first-pass candidate of the named-system pool has
all three support-requirement classes (control-center, dormitory,
power-station) satisfied, and a single failing requirement rejects the
rule as a whole; but the generic/`apply_each` pool and the recursive
remaining-slot filler check only the control-center class, so dormitory
and power-station requirements are not enforced on those paths. -/
theorem C1_support_requirement_checks (env : Env) (workplace : Workplace)
    (obn : List (String × Operator)) (used su : List String)
    (usage : List (String × Nat)) (rem : Nat) :
    (∀ p ∈ first_pass_candidates env workplace obn used su usage rem,
      check_control_center_requirements env.operators
        p.1.rule.requires_control_center = true ∧
      (p.1.ctype = CandType.system →
        check_dormitory_requirements env.operators
          p.1.rule.requires_dormitory = true ∧
        check_power_station_requirements env.operators
          p.1.rule.requires_power_station = true)) ∧
    (∀ p ∈ rec_candidates env workplace obn used su usage rem,
      check_control_center_requirements env.operators
        p.1.rule.requires_control_center = true) := by
  constructor
  · intro p hp
    rw [first_pass_candidates] at hp
    rcases List.mem_append.mp hp with hp | hp
    · obtain ⟨rule, _, heq⟩ := mem_system_pass_candidates hp
      obtain ⟨hr, _, _, _, _, _, _, hcc, hdorm, hpow, _, _⟩ :=
        system_rule_candidate_inv heq
      exact ⟨hr ▸ hcc, fun _ => ⟨hr ▸ hdorm, hr ▸ hpow⟩⟩
    · obtain ⟨rule, _, hcase⟩ := mem_generic_pass_candidates hp
      rcases hcase with ⟨ha, op_name, hop, heq⟩ | ⟨ha, heq⟩
      · obtain ⟨hr, _, _, _, hct, _, _, _, _, _, _, hcc⟩ :=
          generic_each_candidate_inv heq
        refine ⟨hr ▸ hcc, fun hcontra => ?_⟩
        rw [hct] at hcontra
        simp at hcontra
      · obtain ⟨hr, _, _, _, hct, _, _, hcc, _, _⟩ :=
          generic_normal_candidate_inv heq
        refine ⟨hr ▸ hcc, fun hcontra => ?_⟩
        rw [hct] at hcontra
        simp at hcontra
  · intro p hp
    obtain ⟨rule, _, hcase⟩ := mem_rec_candidates hp
    rcases hcase with ⟨ha, op_name, hop, heq⟩ | ⟨ha, heq⟩
    · obtain ⟨hr, _, _, _, _, _, _, _, _, _, hcc⟩ := rec_each_candidate_inv heq
      exact hr ▸ hcc
    · obtain ⟨hr, _, _, _, _, _, _, hcc, _⟩ := rec_normal_candidate_inv heq
      exact hr ▸ hcc

/-- The compiled C1 rule ("S - A" with an unsatisfied dormitory
requirement on the absent operator Z). -/
def ruleC1 : OperatorEfficiency := envC1.efficiency_rules.headD default

/-- C1 counterexample: the rule's dormitory requirement is unsatisfied,
yet `optimize_workplace` applies the rule (through the recursive filler)
and assigns its operator. -/
theorem C1_counterexample :
    check_dormitory_requirements envC1.operators
      ruleC1.requires_dormitory = false ∧
    (optimize_workplace envC1 wTrading1 [("A", 0)] []).map
      (fun r => (r.1.applied_combinations, r.1.optimal_operators.map (·.name))) =
      some ([ruleC1.description], ["A"]) := by
  exact ⟨by decide, by decide⟩

/-- Witness for C1 on the recursive-filler pool of the C1 configuration. -/
def pC1 : Candidate × Q :=
  (rec_candidates envC1 wTrading1 (op_by_name_of envC1) [] [] [("A", 0)]
    1).headD default

theorem C1_support_requirement_checks_witness :
    check_control_center_requirements envC1.operators
      pC1.1.rule.requires_control_center = true :=
  (C1_support_requirement_checks envC1 wTrading1 (op_by_name_of envC1) [] []
    [("A", 0)] 1).2 pC1 (by decide)

/-! ### C2: one-pass greedy selection over both pools -/

/-- C2 (amended): the first-pass candidate pool is the named-system
candidates followed by the generic candidates (including `apply_each`
expansions), evaluated in a single pass; the chosen candidate is the
earliest candidate whose per-slot score is strictly above every earlier
candidate's and at least every later candidate's, so generic candidates
beat a qualifying named-system candidate whenever they score strictly
higher (ties keep the earlier — named-system — candidate). -/
theorem C2_greedy_selection (env : Env) (workplace : Workplace)
    (obn : List (String × Operator)) (used su : List String)
    (usage : List (String × Nat)) (rem : Nat) (c : Candidate)
    (h : (pickBest (first_pass_candidates env workplace obn used su usage
      rem)).1 = some c) :
    first_pass_candidates env workplace obn used su usage rem =
      system_pass_candidates env workplace obn used su usage rem ++
        generic_pass_candidates env workplace obn used su usage rem ∧
    ∃ l1 s l2,
      first_pass_candidates env workplace obn used su usage rem =
        l1 ++ (c, s) :: l2 ∧
      (pickBest (first_pass_candidates env workplace obn used su usage
        rem)).2 = s ∧
      (∀ p ∈ l1, p.2 < s) ∧ (∀ p ∈ l2, ¬ s < p.2) := by
  refine ⟨rfl, ?_⟩
  obtain ⟨l1, s, l2, hsplit, hs, _, hl1, hl2⟩ := pickBest_eq_some _ c h
  exact ⟨l1, s, l2, hsplit, hs, hl1, hl2⟩

/-- The winning candidate of the C2 configuration. -/
def candC2 : Candidate :=
  (pickBest (first_pass_candidates envC2 wTrading3 (op_by_name_of envC2) [] []
    [("D", 0), ("E", 0)] 3)).1.getD default

theorem C2_greedy_selection_witness :
    first_pass_candidates envC2 wTrading3 (op_by_name_of envC2) [] []
        [("D", 0), ("E", 0)] 3 =
      system_pass_candidates envC2 wTrading3 (op_by_name_of envC2) [] []
          [("D", 0), ("E", 0)] 3 ++
        generic_pass_candidates envC2 wTrading3 (op_by_name_of envC2) [] []
          [("D", 0), ("E", 0)] 3 ∧
    ∃ l1 s l2,
      first_pass_candidates envC2 wTrading3 (op_by_name_of envC2) [] []
          [("D", 0), ("E", 0)] 3 = l1 ++ (candC2, s) :: l2 ∧
      (pickBest (first_pass_candidates envC2 wTrading3 (op_by_name_of envC2)
        [] [] [("D", 0), ("E", 0)] 3)).2 = s ∧
      (∀ p ∈ l1, p.2 < s) ∧ (∀ p ∈ l2, ¬ s < p.2) :=
  C2_greedy_selection envC2 wTrading3 (op_by_name_of envC2) [] []
    [("D", 0), ("E", 0)] 3 candC2 rfl

/-- C2 counterexample: a named-system rule qualifies (positive-score
named-system candidate exists), yet the winner is a generic `apply_each`
candidate — generic rules are not only a fallback for when no
named-system rule qualifies. -/
theorem C2_counterexample :
    (∃ p ∈ system_pass_candidates envC2 wTrading3 (op_by_name_of envC2) [] []
      [("D", 0), ("E", 0)] 3, 0 < p.2) ∧
    (pickBest (first_pass_candidates envC2 wTrading3 (op_by_name_of envC2)
        [] [] [("D", 0), ("E", 0)] 3)).1.map Candidate.ctype =
      some CandType.genericEach := by
  exact ⟨by decide, by decide⟩

/-! ### C6: slot cost and synergy of `apply_each` applications -/

/-- C6 (amended): in the recursive filler every `apply_each` candidate
costs exactly 1 slot and scores the rule's full synergy; in the first
pass the same holds for `apply_each` rules grouped as generic, but an
`apply_each` rule whose description matches a named system key is
evaluated as a whole-group (system) candidate instead. -/
theorem C6_apply_each_slots (env : Env) (workplace : Workplace)
    (obn : List (String × Operator)) (used su : List String)
    (usage : List (String × Nat)) (rem : Nat) :
    (∀ p ∈ rec_candidates env workplace obn used su usage rem,
      p.1.rule.apply_each = true →
        p.1.slots_used = 1 ∧ p.1.efficiency = p.1.rule.synergy_efficiency ∧
        p.2 = p.1.rule.synergy_efficiency) ∧
    (∀ p ∈ first_pass_candidates env workplace obn used su usage rem,
      p.1.rule.apply_each = true →
        p.1.ctype = CandType.system ∨
        (p.1.slots_used = 1 ∧ p.1.efficiency = p.1.rule.synergy_efficiency ∧
          p.2 = p.1.rule.synergy_efficiency)) := by
  constructor
  · intro p hp hae
    obtain ⟨rule, _, hcase⟩ := mem_rec_candidates hp
    rcases hcase with ⟨ha, op_name, hop, heq⟩ | ⟨ha, heq⟩
    · obtain ⟨hr, _, heff, hslots, _, hscore, _⟩ := rec_each_candidate_inv heq
      exact ⟨hslots, hr ▸ heff, hr ▸ hscore⟩
    · obtain ⟨hr, _⟩ := rec_normal_candidate_inv heq
      rw [hr, ha] at hae
      simp at hae
  · intro p hp hae
    rw [first_pass_candidates] at hp
    rcases List.mem_append.mp hp with hp | hp
    · obtain ⟨rule, _, heq⟩ := mem_system_pass_candidates hp
      obtain ⟨_, _, _, _, hct, _⟩ := system_rule_candidate_inv heq
      exact Or.inl hct
    · obtain ⟨rule, _, hcase⟩ := mem_generic_pass_candidates hp
      rcases hcase with ⟨ha, op_name, hop, heq⟩ | ⟨ha, heq⟩
      · obtain ⟨hr, _, heff, hslots, _, hscore, _⟩ :=
          generic_each_candidate_inv heq
        exact Or.inr ⟨hslots, hr ▸ heff, hr ▸ hscore⟩
      · obtain ⟨hr, _⟩ := generic_normal_candidate_inv heq
        rw [hr, ha] at hae
        simp at hae

/-- The generic `apply_each` candidate of the C2 configuration. -/
def pC6w : Candidate × Q :=
  (generic_pass_candidates envC2 wTrading3 (op_by_name_of envC2) [] []
    [("D", 0), ("E", 0)] 3).headD default

theorem C6_apply_each_slots_witness :
    pC6w.1.ctype = CandType.system ∨
    (pC6w.1.slots_used = 1 ∧
      pC6w.1.efficiency = pC6w.1.rule.synergy_efficiency ∧
      pC6w.2 = pC6w.1.rule.synergy_efficiency) :=
  (C6_apply_each_slots envC2 wTrading3 (op_by_name_of envC2) [] []
    [("D", 0), ("E", 0)] 3).2 pC6w (by decide) (by decide)

/-- C6 counterexample: an `apply_each` rule compiled inside a structured
system is grouped as a named system, wins the first pass as a whole-group
candidate, and its single application consumes 2 slots (score divided by
the group size) — contradicting "exactly 1 slot and full synergy per
application in the first-pass allocator". -/
theorem C6_counterexample :
    (pickBest (first_pass_candidates envC6 wTrading3 (op_by_name_of envC6)
        [] [] [("A", 0), ("B", 0)] 3)).1.map
      (fun c => (c.rule.apply_each, c.slots_used)) = some (true, 2) ∧
    (pickBest (first_pass_candidates envC6 wTrading3 (op_by_name_of envC6)
        [] [] [("A", 0), ("B", 0)] 3)).2 = Q.divNat 10 2 ∧
    (optimize_workplace envC6 wTrading3 [("A", 0), ("B", 0)] []).map
      (fun r => (r.1.optimal_operators.map (·.name),
        r.1.applied_combinations)) = some (["A", "B"], ["S - A, B"]) := by
  exact ⟨by decide, by decide, by decide⟩

/-! ### C9: termination of the recursive remaining-slot filler -/

theorem pickBest_mem {l : List (Candidate × Q)} {c : Candidate} {be : Q}
    (h : pickBest l = (some c, be)) : (c, be) ∈ l := by
  have h1 : (pickBest l).1 = some c := by rw [h]
  obtain ⟨l1, s, l2, hsplit, hs, _, _, _⟩ := pickBest_eq_some l c h1
  have hbe : be = s := by
    rw [h] at hs
    simpa using hs
  rw [hsplit, hbe]
  exact List.mem_append_right _ (List.mem_cons_self _ _)

theorem rec_candidates_slots_pos {env : Env} {workplace : Workplace}
    {obn : List (String × Operator)} {used su : List String}
    {usage : List (String × Nat)} {rem : Nat} {p : Candidate × Q}
    (hne : ∀ r ∈ env.efficiency_rules, r.operators ≠ [])
    (hp : p ∈ rec_candidates env workplace obn used su usage rem) :
    1 ≤ p.1.slots_used := by
  obtain ⟨rule, hrule, hcase⟩ := mem_rec_candidates hp
  rcases hcase with ⟨_, op_name, _, heq⟩ | ⟨_, heq⟩
  · obtain ⟨_, _, _, hslots, _⟩ := rec_each_candidate_inv heq
    omega
  · obtain ⟨_, _, _, hslots, _⟩ := rec_normal_candidate_inv heq
    rw [hslots]
    exact List.length_pos.mpr (hne rule hrule)

/-- One unfolding step of the recursive filler's loop. -/
theorem rec_loop_succ (env : Env) (workplace : Workplace)
    (obn : List (String × Operator)) (fuel : Nat) (st : ApplyState)
    (remaining_slots : Nat) (acc : RecResult) :
    rec_loop env workplace obn (fuel + 1) st remaining_slots acc =
      if remaining_slots = 0 then some (st, remaining_slots, acc)
      else
        match pickBest (rec_candidates env workplace obn st.used st.shift_used
            st.usage remaining_slots) with
        | (some c, best_efficiency) =>
          if 0 < best_efficiency then
            match apply_candidate obn st c with
            | none => none
            | some st' =>
              rec_loop env workplace obn fuel st'
                (remaining_slots - c.slots_used) (recAdd acc c)
          else some (st, remaining_slots, acc)
        | (none, _) => some (st, remaining_slots, acc) := rfl

/-- C9: the remaining-slot filling loop terminates when every compiled
rule has a non-empty core group: the loop's result is independent of any
fuel bound of at least the remaining capacity (each applied candidate
consumes at least one slot, so the capacity strictly decreases), the loop
exits immediately at capacity zero, and every candidate it can apply
consumes at least one slot. -/
theorem C9_rec_filler_terminates (env : Env) (workplace : Workplace)
    (obn : List (String × Operator))
    (hne : ∀ r ∈ env.efficiency_rules, r.operators ≠ []) :
    (∀ remaining fuel st acc, remaining ≤ fuel →
      rec_loop env workplace obn fuel st remaining acc =
        rec_loop env workplace obn remaining st remaining acc) ∧
    (∀ fuel st acc,
      rec_loop env workplace obn (fuel + 1) st 0 acc = some (st, 0, acc)) ∧
    (∀ used su usage rem,
      ∀ p ∈ rec_candidates env workplace obn used su usage rem,
        1 ≤ p.1.slots_used) := by
  have hslots : ∀ used su usage rem,
      ∀ p ∈ rec_candidates env workplace obn used su usage rem,
        1 ≤ p.1.slots_used :=
    fun used su usage rem p hp => rec_candidates_slots_pos hne hp
  refine ⟨?_, fun fuel st acc => by rw [rec_loop_succ, if_pos rfl], hslots⟩
  intro remaining
  induction remaining using Nat.strong_induction_on with
  | _ remaining ih =>
    intro fuel st acc hf
    cases remaining with
    | zero =>
      cases fuel with
      | zero => rfl
      | succ f => rw [rec_loop_succ, if_pos rfl]; rfl
    | succ r =>
      cases fuel with
      | zero => omega
      | succ f =>
        rw [rec_loop_succ, rec_loop_succ, if_neg (Nat.succ_ne_zero r),
          if_neg (Nat.succ_ne_zero r)]
        rcases hpick : pickBest (rec_candidates env workplace obn st.used
            st.shift_used st.usage (r + 1)) with ⟨bc, be⟩
        cases bc with
        | none => rfl
        | some c =>
          simp only []
          by_cases hbe : 0 < be
          · rw [if_pos hbe, if_pos hbe]
            have hs : 1 ≤ c.slots_used := hslots _ _ _ _ _ (pickBest_mem hpick)
            cases happ : apply_candidate obn st c with
            | none => rfl
            | some st' =>
              simp only []
              have h1 : r + 1 - c.slots_used ≤ r := by omega
              have h2 : r ≤ f := Nat.succ_le_succ_iff.mp hf
              rw [ih (r + 1 - c.slots_used) (by omega) f st' (recAdd acc c)
                  (le_trans h1 h2),
                ih (r + 1 - c.slots_used) (by omega) r st' (recAdd acc c) h1]
          · rw [if_neg hbe, if_neg hbe]

/-- Witness for C9 on the C1 configuration: at capacity 0 the loop exits
immediately. -/
theorem C9_rec_filler_terminates_witness :
    rec_loop envC1 wTrading1 (op_by_name_of envC1) 1
      ⟨[("A", 0)], [], [], []⟩ 0 emptyRecResult =
      some (⟨[("A", 0)], [], [], []⟩, 0, emptyRecResult) :=
  (C9_rec_filler_terminates envC1 wTrading1 (op_by_name_of envC1)
    (by decide)).2.1 0 ⟨[("A", 0)], [], [], []⟩ emptyRecResult

/-! ### C10: efficiency accounting -/

theorem rec_loop_combinations (env : Env) (workplace : Workplace)
    (obn : List (String × Operator)) :
    ∀ (fuel : Nat) (st : ApplyState) (rem : Nat) (acc : RecResult)
      (st' : ApplyState) (rem' : Nat) (acc' : RecResult),
      rec_loop env workplace obn fuel st rem acc = some (st', rem', acc') →
      ∃ tail, acc'.applied_combinations = acc.applied_combinations ++ tail ∧
        (tail = [] → acc'.total_synergy = acc.total_synergy) := by
  intro fuel
  induction fuel with
  | zero =>
    intro st rem acc st' rem' acc' h
    simp only [rec_loop, Option.some.injEq, Prod.mk.injEq] at h
    obtain ⟨_, _, rfl⟩ := h
    exact ⟨[], by simp, fun _ => rfl⟩
  | succ f ih =>
    intro st rem acc st' rem' acc' h
    rw [rec_loop_succ] at h
    by_cases hrem : rem = 0
    · rw [if_pos hrem] at h
      simp only [Option.some.injEq, Prod.mk.injEq] at h
      obtain ⟨_, _, rfl⟩ := h
      exact ⟨[], by simp, fun _ => rfl⟩
    · rw [if_neg hrem] at h
      rcases hpick : pickBest (rec_candidates env workplace obn st.used
          st.shift_used st.usage rem) with ⟨bc, be⟩
      cases bc with
      | none =>
        simp only [hpick, Option.some.injEq, Prod.mk.injEq] at h
        obtain ⟨_, _, rfl⟩ := h
        exact ⟨[], by simp, fun _ => rfl⟩
      | some c =>
        simp only [hpick] at h
        by_cases hbe : 0 < be
        · rw [if_pos hbe] at h
          cases happ : apply_candidate obn st c with
          | none => simp only [happ] at h; exact Option.noConfusion h
          | some st2 =>
            simp only [happ] at h
            obtain ⟨tail, ht, _⟩ :=
              ih st2 (rem - c.slots_used) (recAdd acc c) st' rem' acc' h
            refine ⟨candDescription c :: tail, ?_, fun hnil => by cases hnil⟩
            rw [ht]
            simp [recAdd]
        · rw [if_neg hbe] at h
          simp only [Option.some.injEq, Prod.mk.injEq] at h
          obtain ⟨_, _, rfl⟩ := h
          exact ⟨[], by simp, fun _ => rfl⟩

theorem first_pass_apply_combinations {env : Env} {workplace : Workplace}
    {obn : List (String × Operator)} {st0 : ApplyState} {rem : Nat}
    {st1 : ApplyState} {rem1 : Nat} {res1 : RecResult}
    (h : first_pass_apply env workplace obn st0 rem = some (st1, rem1, res1)) :
    res1.applied_combinations = [] → res1.total_synergy = 0 := by
  rw [first_pass_apply] at h
  rcases hpick : pickBest (first_pass_candidates env workplace obn st0.used
      st0.shift_used st0.usage rem) with ⟨bc, be⟩
  cases bc with
  | none =>
    simp only [hpick, Option.some.injEq, Prod.mk.injEq] at h
    obtain ⟨_, _, rfl⟩ := h
    exact fun _ => rfl
  | some c =>
    simp only [hpick] at h
    by_cases hbe : 0 < be
    · rw [if_pos hbe] at h
      cases happ : apply_candidate obn st0 c with
      | none => simp only [happ] at h; exact Option.noConfusion h
      | some st' =>
        simp only [happ] at h
        simp only [Option.some.injEq, Prod.mk.injEq] at h
        obtain ⟨_, _, rfl⟩ := h
        intro hnil
        simp [recAdd, emptyRecResult] at hnil
    · rw [if_neg hbe] at h
      simp only [Option.some.injEq, Prod.mk.injEq] at h
      obtain ⟨_, _, rfl⟩ := h
      exact fun _ => rfl

/-- Generic inversion of one `optimize_workplace` call. -/
theorem optimize_workplace_inv {env : Env} {workplace : Workplace}
    {usage : List (String × Nat)} {su : List String}
    {out : AssignmentResult × List (String × Nat) × List String}
    (h : optimize_workplace env workplace usage su = some out) :
    ∃ st1 rem1 res1 st2 rem2 res2,
      first_pass_apply env workplace (op_by_name_of env)
          { usage := usage, shift_used := su, used := [], assigned := [] }
          workplace.max_operators = some (st1, rem1, res1) ∧
      (if 0 < rem1 then
        rec_loop env workplace (op_by_name_of env) rem1 st1 rem1 emptyRecResult
       else some (st1, rem1, emptyRecResult)) = some (st2, rem2, res2) ∧
      out = ({ workplace := workplace,
               optimal_operators := st2.assigned,
               total_efficiency := workplace.base_efficiency +
                 (res1.total_synergy + res2.total_synergy),
               operator_efficiency := res1.total_synergy + res2.total_synergy,
               applied_combinations :=
                 res1.applied_combinations ++ res2.applied_combinations,
               control_center_requirements :=
                 res1.applied_control_center_reqs ++
                   res2.applied_control_center_reqs,
               dormitory_requirements :=
                 res1.applied_dormitory_reqs ++ res2.applied_dormitory_reqs,
               power_station_requirements :=
                 res1.applied_power_station_reqs ++
                   res2.applied_power_station_reqs },
             st2.usage, st2.shift_used) := by
  rw [optimize_workplace] at h
  split at h
  · exact Option.noConfusion h
  · rename_i st1 rem1 res1 hfp
    split at h
    · exact Option.noConfusion h
    · rename_i st2 rem2 res2 hrl
      exact ⟨st1, rem1, res1, st2, rem2, res2, hfp, hrl,
        (Option.some.inj h).symm⟩

/-- C10: for every returned `AssignmentResult` the total efficiency is
exactly the workplace base efficiency plus the synergy field, and when no
rule was applied the synergy field is 0. -/
theorem C10_efficiency_accounting (env : Env) (workplace : Workplace)
    (usage : List (String × Nat)) (su : List String) (r : AssignmentResult)
    (usage' : List (String × Nat)) (su' : List String)
    (h : optimize_workplace env workplace usage su = some (r, usage', su')) :
    r.total_efficiency = workplace.base_efficiency + r.operator_efficiency ∧
    (r.applied_combinations = [] →
      r.operator_efficiency = (0 : Q) + (0 : Q) ∧
      r.total_efficiency = workplace.base_efficiency + ((0 : Q) + (0 : Q))) := by
  obtain ⟨st1, rem1, res1, st2, rem2, res2, hfp, hrl, hout⟩ :=
    optimize_workplace_inv h
  simp only [Prod.mk.injEq] at hout
  obtain ⟨hr, -, -⟩ := hout
  subst hr
  refine ⟨rfl, fun hnil => ?_⟩
  simp only [List.append_eq_nil] at hnil
  have h1 : res1.total_synergy = 0 := first_pass_apply_combinations hfp hnil.1
  have h2 : res2.total_synergy = 0 := by
    by_cases hc : 0 < rem1
    · rw [if_pos hc] at hrl
      obtain ⟨tail, ht, hs⟩ := rec_loop_combinations env workplace
        (op_by_name_of env) rem1 st1 rem1 emptyRecResult st2 rem2 res2 hrl
      have : tail = [] := by
        have := hnil.2
        rw [ht] at this
        simpa [emptyRecResult] using this
      exact hs this
    · rw [if_neg hc] at hrl
      simp only [Option.some.injEq, Prod.mk.injEq] at hrl
      obtain ⟨_, _, rfl⟩ := hrl
      rfl
  rw [h1, h2]
  exact ⟨rfl, rfl⟩

/-- Witness for C10 on the C1 configuration. -/
theorem C10_efficiency_accounting_witness :
    ((optimize_workplace envC1 wTrading1 [("A", 0)] []).getD
        (default, [], [])).1.total_efficiency =
      wTrading1.base_efficiency +
        ((optimize_workplace envC1 wTrading1 [("A", 0)] []).getD
          (default, [], [])).1.operator_efficiency :=
  (C10_efficiency_accounting envC1 wTrading1 [("A", 0)] []
    ((optimize_workplace envC1 wTrading1 [("A", 0)] []).getD
      (default, [], [])).1
    ((optimize_workplace envC1 wTrading1 [("A", 0)] []).getD
      (default, [], [])).2.1
    ((optimize_workplace envC1 wTrading1 [("A", 0)] []).getD
      (default, [], [])).2.2 (by decide)).1

/-! ### C4: per-shift exclusivity -/

theorem setAdd_mem_self (s : List String) (k : String) : k ∈ setAdd s k := by
  rw [setAdd]
  by_cases h : s.contains k
  · rw [if_pos h]
    simpa using h
  · rw [if_neg h]
    exact List.mem_append_right _ (List.mem_singleton_self k)

theorem setAdd_mono {s : List String} (k : String) {n : String} (h : n ∈ s) :
    n ∈ setAdd s k := by
  rw [setAdd]
  by_cases hc : s.contains k
  · rwa [if_pos hc]
  · rw [if_neg hc]
    exact List.mem_append_left _ h

theorem contains_false_not_mem {s : List String} {n : String}
    (h : s.contains n = false) : n ∉ s := by
  simpa using h

/-- Every entry of the `op_by_name` dict maps a name to an operator with
that name. -/
theorem op_by_name_entries (env : Env) :
    ∀ p ∈ op_by_name_of env, p.2.name = p.1 := by
  rw [op_by_name_of]
  generalize get_available_operators env = ops
  have : ∀ (l : List Operator) (d : List (String × Operator)),
      (∀ p ∈ d, p.2.name = p.1) →
      ∀ p ∈ l.foldl (fun d op => dictInsert d op.name op) d, p.2.name = p.1 := by
    intro l
    induction l with
    | nil => exact fun d hd => hd
    | cons op rest ih =>
      intro d hd
      refine ih _ ?_
      intro p hp
      simp only [dictInsert] at hp
      by_cases hc : d.any (fun p => p.1 == op.name)
      · rw [if_pos hc] at hp
        obtain ⟨q, hq, hqe⟩ := List.mem_map.mp hp
        by_cases hqk : q.1 == op.name
        · rw [if_pos hqk] at hqe
          rw [← hqe]
        · rw [if_neg hqk] at hqe
          exact hqe ▸ hd q hq
      · rw [if_neg hc] at hp
        rcases List.mem_append.mp hp with hp | hp
        · exact hd p hp
        · have : p = (op.name, op) := by simpa using hp
          rw [this]
  exact this ops [] (by simp)

theorem dictGet_found {α : Type} {d : List (String × α)} {k : String} {v : α}
    (h : dictGet d k = some v) : ∃ p ∈ d, p.1 = k ∧ p.2 = v := by
  rw [dictGet] at h
  rcases hf : d.find? (fun p => p.1 == k) with _ | pr
  · rw [hf] at h; simp at h
  · rw [hf] at h
    simp only [Option.map_some'] at h
    have hk : pr.1 = k := by
      have := List.find?_some hf
      simpa using this
    exact ⟨pr, List.mem_of_find?_eq_some hf, hk, Option.some.inj h⟩

/-- The name resolved through `op_by_name` is the looked-up key. -/
theorem dictGet_op_by_name_name {env : Env} {n : String} {op : Operator}
    (h : dictGet (op_by_name_of env) n = some op) : op.name = n := by
  obtain ⟨p, hp, hk, hv⟩ := dictGet_found h
  rw [← hv, op_by_name_entries env p hp, hk]

theorem apply_one_inv {obn : List (String × Operator)} {st : ApplyState}
    {op_name : String} {st' : ApplyState}
    (h : apply_one obn st op_name = some st') :
    ∃ op usage', dictGet obn op_name = some op ∧
      incrExisting st.usage op_name = some usage' ∧
      st' = { usage := usage', shift_used := setAdd st.shift_used op_name,
              used := setAdd st.used op_name,
              assigned := st.assigned ++ [op] } := by
  rw [apply_one] at h
  rcases hg : dictGet obn op_name with _ | op
  · rw [hg] at h; exact Option.noConfusion h
  · rw [hg] at h
    rcases hi : incrExisting st.usage op_name with _ | usage'
    · rw [hi] at h; exact Option.noConfusion h
    · rw [hi] at h
      exact ⟨op, usage', rfl, rfl, (Option.some.inj h).symm⟩

/-- Effect of the application loop on the exclusivity set and the
assigned list. -/
theorem foldlM_apply_one_shift {env : Env} :
    ∀ (req : List String) (st st' : ApplyState),
      req.foldlM (apply_one (op_by_name_of env)) st = some st' →
      (∀ n ∈ st.shift_used, n ∈ st'.shift_used) ∧
      (∃ new, st'.assigned = st.assigned ++ new ∧
        ∀ op ∈ new, op.name ∈ req ∧ op.name ∈ st'.shift_used) := by
  intro req
  induction req with
  | nil =>
    intro st st' h
    simp only [List.foldlM_nil, Option.pure_def, Option.some.injEq] at h
    subst h
    exact ⟨fun n hn => hn, [], by simp, by simp⟩
  | cons m rest ih =>
    intro st st' h
    simp only [List.foldlM_cons] at h
    rcases h1 : apply_one (op_by_name_of env) st m with _ | st1
    · rw [h1] at h; exact Option.noConfusion h
    · rw [h1] at h
      simp only [Option.bind_eq_bind, Option.some_bind] at h
      obtain ⟨op, usage', hg, hi, hst1⟩ := apply_one_inv h1
      obtain ⟨hmono, new', hassign, hnew⟩ := ih st1 st' h
      refine ⟨?_, op :: new', ?_, ?_⟩
      · intro n hn
        refine hmono n ?_
        rw [hst1]
        exact setAdd_mono m hn
      · rw [hassign, hst1]
        simp
      · intro q hq
        rcases List.mem_cons.mp hq with hq | hq
        · subst hq
          have hname : q.name = m := dictGet_op_by_name_name hg
          constructor
          · rw [hname]
            exact List.mem_cons_self _ _
          · rw [hname]
            refine hmono m ?_
            rw [hst1]
            exact setAdd_mem_self _ _
        · obtain ⟨h1', h2'⟩ := hnew q hq
          exact ⟨List.mem_cons_of_mem m h1', h2'⟩

/-- Availability facts of every first-pass candidate, and the shape of its
required list. -/
theorem first_pass_candidates_facts {env : Env} {workplace : Workplace}
    {obn : List (String × Operator)} {used su : List String}
    {usage : List (String × Nat)} {rem : Nat} {p : Candidate × Q}
    (hp : p ∈ first_pass_candidates env workplace obn used su usage rem) :
    (∀ n ∈ p.1.required,
      (dictGet obn n).isSome = true ∧ used.contains n = false ∧
      su.contains n = false ∧
      dictGetD usage n 0 < max_usage_for env (get_workplace_type workplace) n) ∧
    ((∃ n, p.1.required = [n]) ∨
      ∃ rule ∈ env.efficiency_rules, p.1.required = rule.operators) := by
  rw [first_pass_candidates] at hp
  rcases List.mem_append.mp hp with hp | hp
  · obtain ⟨rule, hrule, heq⟩ := mem_system_pass_candidates hp
    obtain ⟨_, hreq, _, _, _, _, hav, _⟩ := system_rule_candidate_inv heq
    exact ⟨fun n hn => hav n (hreq ▸ hn), Or.inr ⟨rule, hrule, hreq⟩⟩
  · obtain ⟨rule, hrule, hcase⟩ := mem_generic_pass_candidates hp
    rcases hcase with ⟨_, op_name, hop, heq⟩ | ⟨_, heq⟩
    · obtain ⟨_, hreq, _, _, _, _, _, hused, hsu, hsome, hcap, _⟩ :=
        generic_each_candidate_inv heq
      refine ⟨?_, Or.inl ⟨op_name, hreq⟩⟩
      intro n hn
      have : n = op_name := by
        rw [hreq] at hn
        simpa using hn
      subst this
      exact ⟨hsome, hused, hsu, hcap⟩
    · obtain ⟨_, hreq, _, _, _, _, hav, _⟩ := generic_normal_candidate_inv heq
      exact ⟨fun n hn => hav n (hreq ▸ hn), Or.inr ⟨rule, hrule, hreq⟩⟩

/-- Availability facts of every recursive-filler candidate. -/
theorem rec_candidates_facts {env : Env} {workplace : Workplace}
    {obn : List (String × Operator)} {used su : List String}
    {usage : List (String × Nat)} {rem : Nat} {p : Candidate × Q}
    (hp : p ∈ rec_candidates env workplace obn used su usage rem) :
    (∀ n ∈ p.1.required,
      (dictGet obn n).isSome = true ∧ used.contains n = false ∧
      su.contains n = false ∧
      dictGetD usage n 0 < max_usage_for env (get_workplace_type workplace) n) ∧
    ((∃ n, p.1.required = [n]) ∨
      ∃ rule ∈ env.efficiency_rules, p.1.required = rule.operators) := by
  obtain ⟨rule, hrule, hcase⟩ := mem_rec_candidates hp
  rcases hcase with ⟨_, op_name, hop, heq⟩ | ⟨_, heq⟩
  · obtain ⟨_, hreq, _, _, _, _, hused, hsu, hsome, hcap, _⟩ :=
      rec_each_candidate_inv heq
    refine ⟨?_, Or.inl ⟨op_name, hreq⟩⟩
    intro n hn
    have : n = op_name := by
      rw [hreq] at hn
      simpa using hn
    subst this
    exact ⟨hsome, hused, hsu, hcap⟩
  · obtain ⟨_, hreq, _, _, _, _, hav, _⟩ := rec_normal_candidate_inv heq
    exact ⟨fun n hn => hav n (hreq ▸ hn), Or.inr ⟨rule, hrule, hreq⟩⟩

/-- Effect of the first pass on the exclusivity set and assignments. -/
theorem first_pass_apply_shift {env : Env} {workplace : Workplace}
    {st0 : ApplyState} {rem : Nat} {st1 : ApplyState} {rem1 : Nat}
    {res1 : RecResult}
    (h : first_pass_apply env workplace (op_by_name_of env) st0 rem =
      some (st1, rem1, res1)) :
    (∀ n ∈ st0.shift_used, n ∈ st1.shift_used) ∧
    (∃ new, st1.assigned = st0.assigned ++ new ∧
      ∀ op ∈ new, op.name ∈ st1.shift_used ∧ op.name ∉ st0.shift_used) := by
  rw [first_pass_apply] at h
  rcases hpick : pickBest (first_pass_candidates env workplace
      (op_by_name_of env) st0.used st0.shift_used st0.usage rem) with ⟨bc, be⟩
  cases bc with
  | none =>
    simp only [hpick, Option.some.injEq, Prod.mk.injEq] at h
    obtain ⟨rfl, -, -⟩ := h
    exact ⟨fun n hn => hn, [], by simp, by simp⟩
  | some c =>
    simp only [hpick] at h
    by_cases hbe : 0 < be
    · rw [if_pos hbe] at h
      cases happ : apply_candidate (op_by_name_of env) st0 c with
      | none => simp only [happ] at h; exact Option.noConfusion h
      | some st' =>
        simp only [happ, Option.some.injEq, Prod.mk.injEq] at h
        obtain ⟨rfl, -, -⟩ := h
        obtain ⟨hmono, new, hass, hnew⟩ :=
          foldlM_apply_one_shift c.required st0 st' happ
        refine ⟨hmono, new, hass, ?_⟩
        intro op hop
        obtain ⟨hreq, hsu'⟩ := hnew op hop
        have hfacts := (first_pass_candidates_facts (pickBest_mem hpick)).1
          op.name hreq
        exact ⟨hsu', contains_false_not_mem hfacts.2.2.1⟩
    · rw [if_neg hbe] at h
      simp only [Option.some.injEq, Prod.mk.injEq] at h
      obtain ⟨rfl, -, -⟩ := h
      exact ⟨fun n hn => hn, [], by simp, by simp⟩

/-- Effect of the recursive filler loop on the exclusivity set and
assignments. -/
theorem rec_loop_shift {env : Env} {workplace : Workplace} :
    ∀ (fuel : Nat) (st : ApplyState) (rem : Nat) (acc : RecResult)
      (st' : ApplyState) (rem' : Nat) (acc' : RecResult),
      rec_loop env workplace (op_by_name_of env) fuel st rem acc =
        some (st', rem', acc') →
      (∀ n ∈ st.shift_used, n ∈ st'.shift_used) ∧
      (∃ new, st'.assigned = st.assigned ++ new ∧
        ∀ op ∈ new, op.name ∈ st'.shift_used ∧ op.name ∉ st.shift_used) := by
  intro fuel
  induction fuel with
  | zero =>
    intro st rem acc st' rem' acc' h
    simp only [rec_loop, Option.some.injEq, Prod.mk.injEq] at h
    obtain ⟨rfl, -, -⟩ := h
    exact ⟨fun n hn => hn, [], by simp, by simp⟩
  | succ f ih =>
    intro st rem acc st' rem' acc' h
    rw [rec_loop_succ] at h
    by_cases hrem : rem = 0
    · rw [if_pos hrem] at h
      simp only [Option.some.injEq, Prod.mk.injEq] at h
      obtain ⟨rfl, -, -⟩ := h
      exact ⟨fun n hn => hn, [], by simp, by simp⟩
    · rw [if_neg hrem] at h
      rcases hpick : pickBest (rec_candidates env workplace
          (op_by_name_of env) st.used st.shift_used st.usage rem) with ⟨bc, be⟩
      cases bc with
      | none =>
        simp only [hpick, Option.some.injEq, Prod.mk.injEq] at h
        obtain ⟨rfl, -, -⟩ := h
        exact ⟨fun n hn => hn, [], by simp, by simp⟩
      | some c =>
        simp only [hpick] at h
        by_cases hbe : 0 < be
        · rw [if_pos hbe] at h
          cases happ : apply_candidate (op_by_name_of env) st c with
          | none => simp only [happ] at h; exact Option.noConfusion h
          | some st1 =>
            simp only [happ] at h
            obtain ⟨hmono2, new2, hass2, hnew2⟩ :=
              ih st1 (rem - c.slots_used) (recAdd acc c) st' rem' acc' h
            obtain ⟨hmono1, new1, hass1, hnew1⟩ :=
              foldlM_apply_one_shift c.required st st1 happ
            refine ⟨fun n hn => hmono2 n (hmono1 n hn), new1 ++ new2,
              by rw [hass2, hass1, List.append_assoc], ?_⟩
            intro op hop
            rcases List.mem_append.mp hop with hop | hop
            · obtain ⟨hreq, hsu1⟩ := hnew1 op hop
              have hfacts := (rec_candidates_facts (pickBest_mem hpick)).1
                op.name hreq
              exact ⟨hmono2 _ hsu1, contains_false_not_mem hfacts.2.2.1⟩
            · obtain ⟨hsu', hnot1⟩ := hnew2 op hop
              exact ⟨hsu', fun hmem => hnot1 (hmono1 _ hmem)⟩
        · rw [if_neg hbe] at h
          simp only [Option.some.injEq, Prod.mk.injEq] at h
          obtain ⟨rfl, -, -⟩ := h
          exact ⟨fun n hn => hn, [], by simp, by simp⟩

/-- Effect of one `optimize_workplace` call on the exclusivity set: it
grows monotonically, and every newly assigned operator was outside the
incoming set and is inside the outgoing one. -/
theorem optimize_workplace_shift {env : Env} {workplace : Workplace}
    {usage : List (String × Nat)} {su : List String}
    {out : AssignmentResult × List (String × Nat) × List String}
    (h : optimize_workplace env workplace usage su = some out) :
    (∀ n ∈ su, n ∈ out.2.2) ∧
    (∀ op ∈ out.1.optimal_operators, op.name ∈ out.2.2 ∧ op.name ∉ su) := by
  obtain ⟨st1, rem1, res1, st2, rem2, res2, hfp, hrl, hout⟩ :=
    optimize_workplace_inv h
  obtain ⟨hm1, new1, hass1, hnew1⟩ := first_pass_apply_shift hfp
  have hrec : (∀ n ∈ st1.shift_used, n ∈ st2.shift_used) ∧
      (∃ new, st2.assigned = st1.assigned ++ new ∧
        ∀ op ∈ new, op.name ∈ st2.shift_used ∧ op.name ∉ st1.shift_used) := by
    by_cases hc : 0 < rem1
    · rw [if_pos hc] at hrl
      exact rec_loop_shift rem1 st1 rem1 emptyRecResult st2 rem2 res2 hrl
    · rw [if_neg hc] at hrl
      simp only [Option.some.injEq, Prod.mk.injEq] at hrl
      obtain ⟨rfl, -, -⟩ := hrl
      exact ⟨fun n hn => hn, [], by simp, by simp⟩
  obtain ⟨hm2, new2, hass2, hnew2⟩ := hrec
  have hout1 : out.1.optimal_operators = st2.assigned := by rw [hout]
  have hout2 : out.2.2 = st2.shift_used := by rw [hout]
  constructor
  · intro n hn
    rw [hout2]
    exact hm2 n (hm1 n hn)
  · intro op hop
    rw [hout1, hass2, hass1] at hop
    simp only [List.nil_append, List.mem_append] at hop
    rcases hop with hop | hop
    · obtain ⟨hsu1, hnot⟩ := hnew1 op hop
      exact ⟨hout2 ▸ hm2 _ hsu1, hnot⟩
    · obtain ⟨hsu2, hnot1⟩ := hnew2 op hop
      exact ⟨hout2 ▸ hsu2, fun hmem => hnot1 (hm1 _ hmem)⟩

theorem admit_control_mono {st : SchedState} {req : ControlCenterRequirement}
    {st' : SchedState} (h : admit_control st req = some st') :
    ∀ n ∈ st.shift_used, n ∈ st'.shift_used := by
  rw [admit_control] at h
  split at h
  · rcases hi : incrExisting st.usage req.operator with _ | usage'
    · rw [hi] at h; exact Option.noConfusion h
    · rw [hi] at h
      obtain rfl := (Option.some.inj h).symm
      exact fun n hn => setAdd_mono _ hn
  · obtain rfl := (Option.some.inj h).symm
    exact fun n hn => hn

theorem admit_dormitory_mono {st : SchedState} {req : DormitoryRequirement}
    {st' : SchedState} (h : admit_dormitory st req = some st') :
    ∀ n ∈ st.shift_used, n ∈ st'.shift_used := by
  rw [admit_dormitory] at h
  split at h
  · rcases hi : incrExisting st.usage req.operator with _ | usage'
    · rw [hi] at h; exact Option.noConfusion h
    · rw [hi] at h
      obtain rfl := (Option.some.inj h).symm
      exact fun n hn => setAdd_mono _ hn
  · obtain rfl := (Option.some.inj h).symm
    exact fun n hn => hn

theorem foldlM_sched_mono {β : Type} {f : SchedState → β → Option SchedState}
    (hf : ∀ st b st', f st b = some st' →
      ∀ n ∈ st.shift_used, n ∈ st'.shift_used) :
    ∀ (l : List β) (st st' : SchedState), l.foldlM f st = some st' →
      ∀ n ∈ st.shift_used, n ∈ st'.shift_used := by
  intro l
  induction l with
  | nil =>
    intro st st' h
    simp only [List.foldlM_nil, Option.pure_def, Option.some.injEq] at h
    subst h
    exact fun n hn => hn
  | cons b rest ih =>
    intro st st' h
    simp only [List.foldlM_cons] at h
    rcases h1 : f st b with _ | st1
    · rw [h1] at h; exact Option.noConfusion h
    · rw [h1] at h
      simp only [Option.bind_eq_bind, Option.some_bind] at h
      exact fun n hn => ih st1 st' h n (hf st b st1 h1 n hn)

/-- Effect of one station on the shift state: the exclusivity set grows,
and the room's operators are new names for this shift. -/
theorem station_step_shift {env : Env} {collect wp : Bool} {st : SchedState}
    {w : Workplace} {room : Room} {st' : SchedState}
    (h : station_step env collect wp st w = some (room, st')) :
    (∀ n ∈ st.shift_used, n ∈ st'.shift_used) ∧
    (∀ n ∈ room.operators, n ∈ st'.shift_used ∧ n ∉ st.shift_used) := by
  rw [station_step] at h
  rcases hopt : optimize_workplace env w st.usage st.shift_used with
    _ | ⟨result, usage', shift_used'⟩
  · rw [hopt] at h; exact Option.noConfusion h
  · simp only [hopt] at h
    obtain ⟨hmono, hops⟩ := optimize_workplace_shift hopt
    have hroom_ops : ∀ n ∈ result.optimal_operators.map (·.name),
        n ∈ shift_used' ∧ n ∉ st.shift_used := by
      intro n hn
      obtain ⟨op, hop, rfl⟩ := List.mem_map.mp hn
      exact hops op hop
    by_cases hcol : collect
    · rw [if_pos hcol] at h
      rcases hfc : result.control_center_requirements.foldlM admit_control
          { st with usage := usage', shift_used := shift_used' } with _ | st2
      · rw [hfc] at h; exact Option.noConfusion h
      · simp only [hfc] at h
        rcases hfd : result.dormitory_requirements.foldlM admit_dormitory st2
          with _ | st3
        · simp only [hfd] at h
          exact Option.noConfusion h
        · simp only [hfd, Option.some.injEq, Prod.mk.injEq] at h
          obtain ⟨hroom, rfl⟩ := h
          have hc2 : ∀ n ∈ shift_used', n ∈ st2.shift_used :=
            foldlM_sched_mono (fun st b st' h => admit_control_mono h) _ _ _ hfc
          have hc3 : ∀ n ∈ st2.shift_used, n ∈ st3.shift_used :=
            foldlM_sched_mono (fun st b st' h => admit_dormitory_mono h) _ _ _
              hfd
          constructor
          · exact fun n hn => hc3 n (hc2 n (hmono n hn))
          · intro n hn
            rw [← hroom] at hn
            simp only at hn
            obtain ⟨h1', h2'⟩ := hroom_ops n hn
            exact ⟨hc3 n (hc2 n h1'), h2'⟩
    · rw [if_neg hcol] at h
      simp only [Option.some.injEq, Prod.mk.injEq] at h
      obtain ⟨hroom, rfl⟩ := h
      constructor
      · exact fun n hn => hmono n hn
      · intro n hn
        rw [← hroom] at hn
        simp only at hn
        exact hroom_ops n hn

/-- Rooms produced by a run over a workplace list: pairwise disjoint, all
names inside the final exclusivity set and outside the initial one. -/
theorem process_stations_rooms {env : Env} {collect wp : Bool} :
    ∀ (ws : List Workplace) (st : SchedState) (rooms : List Room)
      (st' : SchedState),
      process_stations env collect wp ws st = some (rooms, st') →
      (∀ n ∈ st.shift_used, n ∈ st'.shift_used) ∧
      (∀ room ∈ rooms, ∀ n ∈ room.operators,
        n ∈ st'.shift_used ∧ n ∉ st.shift_used) ∧
      List.Pairwise (fun r1 r2 => ∀ n ∈ r1.operators, n ∉ r2.operators) rooms := by
  intro ws
  induction ws with
  | nil =>
    intro st rooms st' h
    simp only [process_stations, Option.some.injEq, Prod.mk.injEq] at h
    obtain ⟨rfl, rfl⟩ := h
    exact ⟨fun n hn => hn, by simp, by simp⟩
  | cons w rest ih =>
    intro st rooms st' h
    rw [process_stations] at h
    rcases h1 : station_step env collect wp st w with _ | ⟨room, st1⟩
    · rw [h1] at h; exact Option.noConfusion h
    · simp only [h1] at h
      rcases h2 : process_stations env collect wp rest st1 with _ | ⟨rooms', st2⟩
      · simp only [h2] at h
        exact Option.noConfusion h
      · simp only [h2, Option.some.injEq, Prod.mk.injEq] at h
        obtain ⟨rfl, rfl⟩ := h
        obtain ⟨hm1, hroom⟩ := station_step_shift h1
        obtain ⟨hm2, hrooms, hpw⟩ := ih st1 rooms' st2 h2
        refine ⟨fun n hn => hm2 n (hm1 n hn), ?_, ?_⟩
        · intro r hr n hn
          rcases List.mem_cons.mp hr with hr | hr
          · obtain ⟨ha, hb⟩ := hroom n (hr ▸ hn)
            exact ⟨hm2 n ha, hb⟩
          · obtain ⟨ha, hb⟩ := hrooms r hr n hn
            exact ⟨ha, fun hmem => hb (hm1 n hmem)⟩
        · refine List.pairwise_cons.mpr ⟨?_, hpw⟩
          intro r2 hr2 n hn hn2
          obtain ⟨ha, _⟩ := hroom n hn
          obtain ⟨_, hb⟩ := hrooms r2 hr2 n hn2
          exact hb ha


/-! ### C4: per-shift exclusivity of room assignments -/

/-- The assigned-operator lists of the rooms of one plan, in emission
order: trading stations, manufacturing stations, meeting room, power
stations. -/
def plan_room_ops (p : Plan) : List (List String) :=
  p.trading.map (·.operators) ++ p.manufacture.map (·.operators) ++
    [p.meeting.operators] ++ p.power.map (·.operators)

/-- Disjointness relation between two room operator lists. -/
def roomsDisjoint (l1 l2 : List String) : Prop := ∀ n ∈ l1, n ∉ l2

/-- One shift: the rooms built by `build_shift` have pairwise disjoint
operator lists, since the shift-local exclusivity set starts empty and
grows monotonically through the four station passes. -/
theorem build_shift_exclusive {env : Env} {ws : Workplaces} {shift : Nat}
    {fe : Bool} {usage usage' : List (String × Nat)} {plan : Plan}
    (h : build_shift env ws shift fe usage = some (plan, usage')) :
    List.Pairwise roomsDisjoint (plan_room_ops plan) := by
  simp only [build_shift] at h
  rcases h1 : process_stations env true true ws.trading_stations
      { usage := usage, shift_used := [], control_operators := []
        dormitory_operators := [] } with _ | ⟨trading_rooms, st1⟩
  · rw [h1] at h; exact Option.noConfusion h
  · simp only [h1] at h
    rcases h2 : process_stations env true true ws.manufacturing_stations st1
      with _ | ⟨man_rooms, st2⟩
    · simp only [h2] at h
      exact Option.noConfusion h
    · simp only [h2] at h
      rcases h3 : station_step env false false st2 ws.meeting_room
        with _ | ⟨meet_room, st3⟩
      · simp only [h3] at h
        exact Option.noConfusion h
      · simp only [h3] at h
        rcases h4 : process_stations env false false ws.power_station st3
          with _ | ⟨power_rooms, st4⟩
        · simp only [h4] at h
          exact Option.noConfusion h
        · simp only [h4, Option.some.injEq, Prod.mk.injEq] at h
          obtain ⟨rfl, -⟩ := h
          obtain ⟨-, hr1, hpw1⟩ := process_stations_rooms _ _ _ _ h1
          obtain ⟨hm2, hr2, hpw2⟩ := process_stations_rooms _ _ _ _ h2
          obtain ⟨hm3, hr3⟩ := station_step_shift h3
          obtain ⟨-, hr4, hpw4⟩ := process_stations_rooms _ _ _ _ h4
          simp only [plan_room_ops]
          have hTin : ∀ l ∈ trading_rooms.map Room.operators,
              ∀ n ∈ l, n ∈ st1.shift_used := by
            intro l hl n hn
            obtain ⟨r, hr, rfl⟩ := List.mem_map.mp hl
            exact (hr1 r hr n hn).1
          have hMin : ∀ l ∈ man_rooms.map Room.operators,
              ∀ n ∈ l, n ∈ st2.shift_used := by
            intro l hl n hn
            obtain ⟨r, hr, rfl⟩ := List.mem_map.mp hl
            exact (hr2 r hr n hn).1
          have hMout : ∀ l ∈ man_rooms.map Room.operators,
              ∀ n ∈ l, n ∉ st1.shift_used := by
            intro l hl n hn
            obtain ⟨r, hr, rfl⟩ := List.mem_map.mp hl
            exact (hr2 r hr n hn).2
          have hPout : ∀ l ∈ power_rooms.map Room.operators,
              ∀ n ∈ l, n ∉ st3.shift_used := by
            intro l hl n hn
            obtain ⟨r, hr, rfl⟩ := List.mem_map.mp hl
            exact (hr4 r hr n hn).2
          refine List.pairwise_append.mpr ⟨List.pairwise_append.mpr
              ⟨List.pairwise_append.mpr ⟨List.pairwise_map.mpr hpw1,
                List.pairwise_map.mpr hpw2, ?_⟩, by simp, ?_⟩,
            List.pairwise_map.mpr hpw4, ?_⟩
          · intro a ha b hb n hna hnb
            exact hMout b hb n hnb (hTin a ha n hna)
          · intro a ha b hb n hna hnb
            obtain rfl := List.mem_singleton.mp hb
            rcases List.mem_append.mp ha with ha | ha
            · exact (hr3 n hnb).2 (hm2 n (hTin a ha n hna))
            · exact (hr3 n hnb).2 (hMin a ha n hna)
          · intro a ha b hb n hna hnb
            rcases List.mem_append.mp ha with ha1 | ha1
            · rcases List.mem_append.mp ha1 with ha2 | ha2
              · exact hPout b hb n hnb (hm3 n (hm2 n (hTin a ha2 n hna)))
              · exact hPout b hb n hnb (hm3 n (hMin a ha2 n hna))
            · obtain rfl := List.mem_singleton.mp ha1
              exact hPout b hb n hnb (hr3 n hna).1

/-- All shifts: every plan emitted by `run_shifts` has pairwise disjoint
room operator lists. -/
theorem run_shifts_exclusive {env : Env} {ws : Workplaces} {fe : Bool} :
    ∀ (shifts : List Nat) (usage : List (String × Nat)) (plans : List Plan)
      (usage' : List (String × Nat)),
      run_shifts env ws fe shifts usage = some (plans, usage') →
      ∀ plan ∈ plans, List.Pairwise roomsDisjoint (plan_room_ops plan) := by
  intro shifts
  induction shifts with
  | nil =>
    intro usage plans usage' h plan hplan
    simp only [run_shifts, Option.some.injEq, Prod.mk.injEq] at h
    obtain ⟨rfl, -⟩ := h
    exact absurd hplan (List.not_mem_nil _)
  | cons s ss ih =>
    intro usage plans usage' h plan hplan
    rw [run_shifts] at h
    rcases h1 : build_shift env ws s fe usage with _ | ⟨p, u1⟩
    · rw [h1] at h; exact Option.noConfusion h
    · simp only [h1] at h
      rcases h2 : run_shifts env ws fe ss u1 with _ | ⟨ps, u2⟩
      · simp only [h2] at h
        exact Option.noConfusion h
      · simp only [h2, Option.some.injEq, Prod.mk.injEq] at h
        obtain ⟨rfl, -⟩ := h
        rcases List.mem_cons.mp hplan with rfl | hmem
        · exact build_shift_exclusive h1
        · exact ih u1 ps u2 h2 plan hmem

/-- C4: in every period (shift) emitted by the scheduler, no operator name
appears in the assigned operator list of more than one workplace (trading,
manufacturing, meeting-room, power rooms), regardless of usage headroom;
the period-local exclusivity set starts empty at each period boundary. -/
theorem C4_period_exclusivity (operator_data : List Operator)
    (rules : List OperatorEfficiency)
    (system_keys : List (String × List String)) (ws : Workplaces)
    (pr : ProductRequirements) (fe : Bool) (plans : List Plan)
    (usage : List (String × Nat))
    (h : run_schedule operator_data rules system_keys ws pr fe =
      some (plans, usage)) :
    ∀ plan ∈ plans, List.Pairwise roomsDisjoint (plan_room_ops plan) := by
  simp only [run_schedule] at h
  exact run_shifts_exclusive _ _ _ _ h

/-- The compiled rule table of the C3/C4 configuration. -/
def rulesC3 : List OperatorEfficiency := (load_efficiency_rules specC3).getD []

/-- The concrete scheduler output on the C3/C4 configuration. -/
def outC3 : List Plan × List (String × Nat) :=
  (run_schedule catalogC3 rulesC3 (sysKeys specC3) workplacesC3 noProducts
    true).getD ([], [])

def defaultPlan : Plan :=
  { name := "", description := "", fiammetta_enable := false,
    fiammetta_target := "", trading := [], manufacture := [],
    control_operators := [], dormitory_operators := none,
    meeting := { operators := [], autofill := false }, power := [] }

def planC4 : Plan := outC3.1.headD defaultPlan

theorem C4_period_exclusivity_witness :
    List.Pairwise roomsDisjoint (plan_room_ops planC4) :=
  C4_period_exclusivity catalogC3 rulesC3 (sysKeys specC3) workplacesC3
    noProducts true outC3.1 outC3.2 (by rfl) planC4 (by decide)

/-! ### C3: the usage-budget cap across a full cycle -/

/-- Effect of the increment map on lookups. -/
theorem dictGet_incr_map (k : String) :
    ∀ (d : List (String × Nat)) (j : String),
    dictGet (d.map (fun p => if p.1 == k then (p.1, p.2 + 1) else p)) j =
      (dictGet d j).map (fun v => if j == k then v + 1 else v) := by
  intro d
  induction d with
  | nil => intro j; rfl
  | cons p d ih =>
    intro j
    have hk1 : (if p.1 == k then (p.1, p.2 + 1) else p).1 = p.1 := by
      by_cases h : p.1 == k <;> simp [h]
    by_cases hpj : p.1 = j
    · subst hpj
      by_cases hk : p.1 = k <;>
        simp [dictGet, List.find?_cons, hk1, hk]
    · have h2 : (p.1 == j) = false := by simp [hpj]
      have h1 : ((if p.1 == k then (p.1, p.2 + 1) else p).1 == j) = false := by
        rw [hk1]; exact h2
      simp only [dictGet, List.map_cons, List.find?_cons, h1, h2]
      exact ih j

/-- Effect of `d[k] += 1` on lookups with default 0. -/
theorem incrExisting_getD {d : List (String × Nat)} {k : String}
    {d' : List (String × Nat)} (h : incrExisting d k = some d') (j : String) :
    dictGetD d' j 0 = dictGetD d j 0 + (if j = k then 1 else 0) := by
  rw [incrExisting] at h
  by_cases hs : (dictGet d k).isSome
  · rw [if_pos hs] at h
    obtain rfl := (Option.some.inj h).symm
    rw [dictGetD, dictGetD, dictGet_incr_map]
    rcases hj : dictGet d j with _ | v
    · by_cases hjk : j = k
      · subst hjk
        rw [hj] at hs
        exact absurd hs (by simp)
      · simp [hjk]
    · simp only [Option.map_some, Option.getD_some]
      by_cases hjk : j = k
      · subst hjk
        simp
      · simp [hjk]
  · rw [if_neg hs] at h
    exact Option.noConfusion h

/-- Effect of the application loop on the usage dict: each required name
is incremented exactly once (the required list being duplicate-free). -/
theorem foldlM_apply_one_usage {obn : List (String × Operator)} :
    ∀ (req : List String) (st st' : ApplyState), req.Nodup →
      req.foldlM (apply_one obn) st = some st' →
      ∀ k, dictGetD st'.usage k 0 =
        dictGetD st.usage k 0 + (if k ∈ req then 1 else 0) := by
  intro req
  induction req with
  | nil =>
    intro st st' _ h k
    simp only [List.foldlM_nil, Option.pure_def, Option.some.injEq] at h
    subst h
    simp
  | cons m rest ih =>
    intro st st' hnd h k
    simp only [List.foldlM_cons] at h
    rcases h1 : apply_one obn st m with _ | st1
    · rw [h1] at h; exact Option.noConfusion h
    · rw [h1] at h
      simp only [Option.bind_eq_bind, Option.some_bind] at h
      obtain ⟨op, usage', hg, hi, hst1⟩ := apply_one_inv h1
      have hrest := ih st1 st' (List.Nodup.of_cons hnd) h k
      have hstep := incrExisting_getD hi k
      have hu1 : st1.usage = usage' := by rw [hst1]
      rw [hrest, hu1, hstep]
      by_cases hk : k = m
      · subst hk
        have hnot : k ∉ rest := (List.nodup_cons.mp hnd).1
        simp [hnot]
      · by_cases hkr : k ∈ rest <;>
          simp [hk, hkr]

/-- The cycle-wide usage bound: at most 2 for every operator, at most 3
for quota-boost targets. -/
def UsageBound (targets : List String) (u : List (String × Nat)) : Prop :=
  ∀ k, dictGetD u k 0 ≤ 2 ∨
    (targets.contains k = true ∧ dictGetD u k 0 ≤ 3)

/-- Applying one candidate whose operators all passed the availability
check preserves the usage bound. -/
theorem UsageBound_apply_candidate {env : Env} {wt : String}
    {obn : List (String × Operator)} {st st' : ApplyState} {c : Candidate}
    (hub : UsageBound env.fiammetta_targets st.usage)
    (hav : ∀ n ∈ c.required,
      dictGetD st.usage n 0 < max_usage_for env wt n)
    (hnd : c.required.Nodup)
    (happ : apply_candidate obn st c = some st') :
    UsageBound env.fiammetta_targets st'.usage := by
  intro k
  have heff := foldlM_apply_one_usage c.required st st' hnd happ k
  by_cases hk : k ∈ c.required
  · rw [heff, if_pos hk]
    have hlt := hav k hk
    rw [max_usage_for] at hlt
    by_cases hcond : (env.fiammetta_targets.contains k &&
        (wt == "trading_station")) = true
    · rw [if_pos hcond] at hlt
      rw [Bool.and_eq_true] at hcond
      exact Or.inr ⟨hcond.1, by omega⟩
    · rw [if_neg hcond] at hlt
      exact Or.inl (by omega)
  · rw [heff, if_neg hk, Nat.add_zero]
    exact hub k

/-- The duplicate-freedom of every candidate required list, under
duplicate-free rule combos. -/
theorem candidate_required_nodup {env : Env}
    (hnodup : ∀ r ∈ env.efficiency_rules, r.operators.Nodup) {c : Candidate}
    (hshape : (∃ n, c.required = [n]) ∨
      ∃ rule ∈ env.efficiency_rules, c.required = rule.operators) :
    c.required.Nodup := by
  rcases hshape with ⟨n, hn⟩ | ⟨rule, hrule, hr⟩
  · rw [hn]; exact List.nodup_singleton n
  · rw [hr]; exact hnodup rule hrule

/-- The first pass preserves the usage bound. -/
theorem UsageBound_first_pass_apply {env : Env} {workplace : Workplace}
    {st0 : ApplyState} {rem : Nat} {st1 : ApplyState} {rem1 : Nat}
    {res1 : RecResult}
    (hnodup : ∀ r ∈ env.efficiency_rules, r.operators.Nodup)
    (hub : UsageBound env.fiammetta_targets st0.usage)
    (h : first_pass_apply env workplace (op_by_name_of env) st0 rem =
      some (st1, rem1, res1)) :
    UsageBound env.fiammetta_targets st1.usage := by
  rw [first_pass_apply] at h
  rcases hpick : pickBest (first_pass_candidates env workplace
      (op_by_name_of env) st0.used st0.shift_used st0.usage rem) with ⟨bc, be⟩
  cases bc with
  | none =>
    simp only [hpick, Option.some.injEq, Prod.mk.injEq] at h
    obtain ⟨rfl, -, -⟩ := h
    exact hub
  | some c =>
    simp only [hpick] at h
    by_cases hbe : 0 < be
    · rw [if_pos hbe] at h
      cases happ : apply_candidate (op_by_name_of env) st0 c with
      | none => simp only [happ] at h; exact Option.noConfusion h
      | some st' =>
        simp only [happ, Option.some.injEq, Prod.mk.injEq] at h
        obtain ⟨rfl, -, -⟩ := h
        obtain ⟨hfacts, hshape⟩ := first_pass_candidates_facts
          (pickBest_mem hpick)
        exact UsageBound_apply_candidate hub
          (fun n hn => (hfacts n hn).2.2.2)
          (candidate_required_nodup hnodup hshape) happ
    · rw [if_neg hbe] at h
      simp only [Option.some.injEq, Prod.mk.injEq] at h
      obtain ⟨rfl, -, -⟩ := h
      exact hub

/-- The recursive filler preserves the usage bound. -/
theorem UsageBound_rec_loop {env : Env} {workplace : Workplace}
    (hnodup : ∀ r ∈ env.efficiency_rules, r.operators.Nodup) :
    ∀ (fuel : Nat) (st : ApplyState) (rem : Nat) (acc : RecResult)
      (st' : ApplyState) (rem' : Nat) (acc' : RecResult),
      rec_loop env workplace (op_by_name_of env) fuel st rem acc =
        some (st', rem', acc') →
      UsageBound env.fiammetta_targets st.usage →
      UsageBound env.fiammetta_targets st'.usage := by
  intro fuel
  induction fuel with
  | zero =>
    intro st rem acc st' rem' acc' h hub
    simp only [rec_loop, Option.some.injEq, Prod.mk.injEq] at h
    obtain ⟨rfl, -, -⟩ := h
    exact hub
  | succ f ih =>
    intro st rem acc st' rem' acc' h hub
    rw [rec_loop_succ] at h
    by_cases hrem : rem = 0
    · rw [if_pos hrem] at h
      simp only [Option.some.injEq, Prod.mk.injEq] at h
      obtain ⟨rfl, -, -⟩ := h
      exact hub
    · rw [if_neg hrem] at h
      rcases hpick : pickBest (rec_candidates env workplace
          (op_by_name_of env) st.used st.shift_used st.usage rem) with ⟨bc, be⟩
      cases bc with
      | none =>
        simp only [hpick, Option.some.injEq, Prod.mk.injEq] at h
        obtain ⟨rfl, -, -⟩ := h
        exact hub
      | some c =>
        simp only [hpick] at h
        by_cases hbe : 0 < be
        · rw [if_pos hbe] at h
          cases happ : apply_candidate (op_by_name_of env) st c with
          | none => simp only [happ] at h; exact Option.noConfusion h
          | some st1 =>
            simp only [happ] at h
            obtain ⟨hfacts, hshape⟩ := rec_candidates_facts
              (pickBest_mem hpick)
            exact ih st1 (rem - c.slots_used) (recAdd acc c) st' rem' acc' h
              (UsageBound_apply_candidate hub
                (fun n hn => (hfacts n hn).2.2.2)
                (candidate_required_nodup hnodup hshape) happ)
        · rw [if_neg hbe] at h
          simp only [Option.some.injEq, Prod.mk.injEq] at h
          obtain ⟨rfl, -, -⟩ := h
          exact hub

/-- `optimize_workplace` preserves the usage bound. -/
theorem UsageBound_optimize_workplace {env : Env} {workplace : Workplace}
    {usage : List (String × Nat)} {su : List String}
    {out : AssignmentResult × List (String × Nat) × List String}
    (hnodup : ∀ r ∈ env.efficiency_rules, r.operators.Nodup)
    (hub : UsageBound env.fiammetta_targets usage)
    (h : optimize_workplace env workplace usage su = some out) :
    UsageBound env.fiammetta_targets out.2.1 := by
  obtain ⟨st1, rem1, res1, st2, rem2, res2, hfp, hrl, hout⟩ :=
    optimize_workplace_inv h
  have hub1 : UsageBound env.fiammetta_targets st1.usage :=
    UsageBound_first_pass_apply hnodup hub hfp
  have hub2 : UsageBound env.fiammetta_targets st2.usage := by
    by_cases hc : 0 < rem1
    · rw [if_pos hc] at hrl
      exact UsageBound_rec_loop hnodup rem1 st1 rem1 emptyRecResult st2 rem2
        res2 hrl hub1
    · rw [if_neg hc] at hrl
      simp only [Option.some.injEq, Prod.mk.injEq] at hrl
      obtain ⟨rfl, -, -⟩ := hrl
      exact hub1
  have : out.2.1 = st2.usage := by rw [hout]
  rw [this]
  exact hub2

/-- Control-center admission preserves the usage bound (plain cap 2). -/
theorem UsageBound_admit_control {targets : List String} {st : SchedState}
    {req : ControlCenterRequirement} {st' : SchedState}
    (hub : UsageBound targets st.usage)
    (h : admit_control st req = some st') :
    UsageBound targets st'.usage := by
  rw [admit_control] at h
  split at h
  · rename_i hguard
    rcases hi : incrExisting st.usage req.operator with _ | usage'
    · rw [hi] at h; exact Option.noConfusion h
    · rw [hi] at h
      obtain rfl := (Option.some.inj h).symm
      intro k
      have hstep := incrExisting_getD hi k
      simp only at hstep
      rw [hstep]
      by_cases hk : k = req.operator
      · have hlt : dictGetD st.usage req.operator 0 < 2 := by
          simp only [Bool.and_eq_true, decide_eq_true_eq] at hguard
          exact hguard.2
        rw [hk, if_pos rfl]
        exact Or.inl (by omega)
      · rw [if_neg hk, Nat.add_zero]
        exact hub k
  · obtain rfl := (Option.some.inj h).symm
    exact hub

/-- Dormitory admission preserves the usage bound (plain cap 2). -/
theorem UsageBound_admit_dormitory {targets : List String} {st : SchedState}
    {req : DormitoryRequirement} {st' : SchedState}
    (hub : UsageBound targets st.usage)
    (h : admit_dormitory st req = some st') :
    UsageBound targets st'.usage := by
  rw [admit_dormitory] at h
  split at h
  · rename_i hguard
    rcases hi : incrExisting st.usage req.operator with _ | usage'
    · rw [hi] at h; exact Option.noConfusion h
    · rw [hi] at h
      obtain rfl := (Option.some.inj h).symm
      intro k
      have hstep := incrExisting_getD hi k
      simp only at hstep
      rw [hstep]
      by_cases hk : k = req.operator
      · have hlt : dictGetD st.usage req.operator 0 < 2 := by
          simp only [Bool.and_eq_true, decide_eq_true_eq] at hguard
          exact hguard.2
        rw [hk, if_pos rfl]
        exact Or.inl (by omega)
      · rw [if_neg hk, Nat.add_zero]
        exact hub k
  · obtain rfl := (Option.some.inj h).symm
    exact hub

/-- A property of the scheduler state preserved by each fold step is
preserved by the whole fold. -/
theorem foldlM_sched_preserve {β : Type} {f : SchedState → β → Option SchedState}
    {P : SchedState → Prop}
    (hf : ∀ st b st', P st → f st b = some st' → P st') :
    ∀ (l : List β) (st st' : SchedState), l.foldlM f st = some st' →
      P st → P st' := by
  intro l
  induction l with
  | nil =>
    intro st st' h hp
    simp only [List.foldlM_nil, Option.pure_def, Option.some.injEq] at h
    subst h
    exact hp
  | cons b rest ih =>
    intro st st' h hp
    simp only [List.foldlM_cons] at h
    rcases h1 : f st b with _ | st1
    · rw [h1] at h; exact Option.noConfusion h
    · rw [h1] at h
      simp only [Option.bind_eq_bind, Option.some_bind] at h
      exact ih st1 st' h (hf st b st1 hp h1)

/-- One station preserves the usage bound. -/
theorem UsageBound_station_step {env : Env} {collect wp : Bool}
    {st : SchedState} {w : Workplace} {room : Room} {st' : SchedState}
    (hnodup : ∀ r ∈ env.efficiency_rules, r.operators.Nodup)
    (hub : UsageBound env.fiammetta_targets st.usage)
    (h : station_step env collect wp st w = some (room, st')) :
    UsageBound env.fiammetta_targets st'.usage := by
  rw [station_step] at h
  rcases hopt : optimize_workplace env w st.usage st.shift_used with
    _ | ⟨result, usage', shift_used'⟩
  · rw [hopt] at h; exact Option.noConfusion h
  · simp only [hopt] at h
    have hub1 : UsageBound env.fiammetta_targets usage' :=
      UsageBound_optimize_workplace hnodup hub hopt
    by_cases hcol : collect
    · rw [if_pos hcol] at h
      rcases hfc : result.control_center_requirements.foldlM admit_control
          { st with usage := usage', shift_used := shift_used' } with _ | st2
      · rw [hfc] at h; exact Option.noConfusion h
      · simp only [hfc] at h
        rcases hfd : result.dormitory_requirements.foldlM admit_dormitory st2
          with _ | st3
        · simp only [hfd] at h
          exact Option.noConfusion h
        · simp only [hfd, Option.some.injEq, Prod.mk.injEq] at h
          obtain ⟨-, rfl⟩ := h
          have hub2 : UsageBound env.fiammetta_targets st2.usage :=
            foldlM_sched_preserve
              (fun st b st' hp hstep => UsageBound_admit_control hp hstep)
              _ _ _ hfc hub1
          exact foldlM_sched_preserve
            (fun st b st' hp hstep => UsageBound_admit_dormitory hp hstep)
            _ _ _ hfd hub2
    · rw [if_neg hcol] at h
      simp only [Option.some.injEq, Prod.mk.injEq] at h
      obtain ⟨-, rfl⟩ := h
      exact hub1

/-- A station pass preserves the usage bound. -/
theorem UsageBound_process_stations {env : Env} {collect wp : Bool}
    (hnodup : ∀ r ∈ env.efficiency_rules, r.operators.Nodup) :
    ∀ (ws : List Workplace) (st : SchedState) (rooms : List Room)
      (st' : SchedState),
      process_stations env collect wp ws st = some (rooms, st') →
      UsageBound env.fiammetta_targets st.usage →
      UsageBound env.fiammetta_targets st'.usage := by
  intro ws
  induction ws with
  | nil =>
    intro st rooms st' h hub
    simp only [process_stations, Option.some.injEq, Prod.mk.injEq] at h
    obtain ⟨-, rfl⟩ := h
    exact hub
  | cons w rest ih =>
    intro st rooms st' h hub
    rw [process_stations] at h
    rcases h1 : station_step env collect wp st w with _ | ⟨room, st1⟩
    · rw [h1] at h; exact Option.noConfusion h
    · simp only [h1] at h
      rcases h2 : process_stations env collect wp rest st1 with _ | ⟨rooms', st2⟩
      · simp only [h2] at h
        exact Option.noConfusion h
      · simp only [h2, Option.some.injEq, Prod.mk.injEq] at h
        obtain ⟨-, rfl⟩ := h
        exact ih st1 rooms' st2 h2 (UsageBound_station_step hnodup hub h1)

/-- One shift preserves the usage bound. -/
theorem UsageBound_build_shift {env : Env} {ws : Workplaces} {shift : Nat}
    {fe : Bool} {usage usage' : List (String × Nat)} {plan : Plan}
    (hnodup : ∀ r ∈ env.efficiency_rules, r.operators.Nodup)
    (hub : UsageBound env.fiammetta_targets usage)
    (h : build_shift env ws shift fe usage = some (plan, usage')) :
    UsageBound env.fiammetta_targets usage' := by
  simp only [build_shift] at h
  rcases h1 : process_stations env true true ws.trading_stations
      { usage := usage, shift_used := [], control_operators := []
        dormitory_operators := [] } with _ | ⟨trading_rooms, st1⟩
  · rw [h1] at h; exact Option.noConfusion h
  · simp only [h1] at h
    rcases h2 : process_stations env true true ws.manufacturing_stations st1
      with _ | ⟨man_rooms, st2⟩
    · simp only [h2] at h
      exact Option.noConfusion h
    · simp only [h2] at h
      rcases h3 : station_step env false false st2 ws.meeting_room
        with _ | ⟨meet_room, st3⟩
      · simp only [h3] at h
        exact Option.noConfusion h
      · simp only [h3] at h
        rcases h4 : process_stations env false false ws.power_station st3
          with _ | ⟨power_rooms, st4⟩
        · simp only [h4] at h
          exact Option.noConfusion h
        · simp only [h4, Option.some.injEq, Prod.mk.injEq] at h
          obtain ⟨-, rfl⟩ := h
          exact UsageBound_process_stations hnodup _ _ _ _ h4
            (UsageBound_station_step hnodup
              (UsageBound_process_stations hnodup _ _ _ _ h2
                (UsageBound_process_stations hnodup _ _ _ _ h1 hub)) h3)

/-- All shifts preserve the usage bound. -/
theorem UsageBound_run_shifts {env : Env} {ws : Workplaces} {fe : Bool}
    (hnodup : ∀ r ∈ env.efficiency_rules, r.operators.Nodup) :
    ∀ (shifts : List Nat) (usage : List (String × Nat)) (plans : List Plan)
      (usage' : List (String × Nat)),
      run_shifts env ws fe shifts usage = some (plans, usage') →
      UsageBound env.fiammetta_targets usage →
      UsageBound env.fiammetta_targets usage' := by
  intro shifts
  induction shifts with
  | nil =>
    intro usage plans usage' h hub
    simp only [run_shifts, Option.some.injEq, Prod.mk.injEq] at h
    obtain ⟨-, rfl⟩ := h
    exact hub
  | cons sh ss ih =>
    intro usage plans usage' h hub
    rw [run_shifts] at h
    rcases h1 : build_shift env ws sh fe usage with _ | ⟨p, u1⟩
    · rw [h1] at h; exact Option.noConfusion h
    · simp only [h1] at h
      rcases h2 : run_shifts env ws fe ss u1 with _ | ⟨ps, u2⟩
      · simp only [h2] at h
        exact Option.noConfusion h
      · simp only [h2, Option.some.injEq, Prod.mk.injEq] at h
        obtain ⟨-, rfl⟩ := h
        exact ih u1 ps u2 h2 (UsageBound_build_shift hnodup hub h1)

/-- Values of the initial usage dict after folding in zero entries. -/
theorem foldl_zero_dict (ops : List Operator) :
    ∀ (d : List (String × Nat)), (∀ p ∈ d, p.2 = 0) →
      ∀ p ∈ ops.foldl (fun d op => dictInsert d op.name 0) d, p.2 = 0 := by
  induction ops with
  | nil => intro d hd p hp; exact hd p hp
  | cons op rest ih =>
    intro d hd
    refine ih (dictInsert d op.name 0) ?_
    intro p hp
    rw [dictInsert] at hp
    split at hp
    · obtain ⟨q, hq, hpq⟩ := List.mem_map.mp hp
      split at hpq
      · rw [← hpq]
      · rw [← hpq]; exact hd q hq
    · rcases List.mem_append.mp hp with hp | hp
      · exact hd p hp
      · simp only [List.mem_singleton] at hp
        rw [hp]

/-- An all-zero dict satisfies the usage bound for any target set. -/
theorem UsageBound_of_zero {targets : List String}
    {d : List (String × Nat)} (hd : ∀ p ∈ d, p.2 = 0) :
    UsageBound targets d := by
  intro k
  left
  rw [dictGetD]
  rcases hg : dictGet d k with _ | v
  · simp
  · obtain ⟨pr, hpr, hv⟩ := dictGet_mem hg
    simp only [Option.getD_some]
    rw [← hv, hd pr hpr]
    simp

/-- The quota-boost target list, as `get_optimal_assignments` computes it
before scheduling (lines 846–856). -/
def fiammetta_targets_of (operator_data : List Operator)
    (rules : List OperatorEfficiency) (fe_cfg : Bool) : List String :=
  let operators := load_operators_dict operator_data
  if (if fe_cfg then check_fiammetta_available operators else false) then
    select_fiammetta_targets operators rules
  else []

/-- C3 (amended): after a full cycle every operator's usage-budget count
is at most 2, or at most 3 when the operator is a quota-boost (Fiammetta)
target; the relaxed cap of 3 is granted exactly to targets evaluated at a
trading station. The cap does not require all of a target's assignments
to be trading assignments: a target can reach 3 with earlier
non-trading assignments (see the counterexample). -/
theorem C3_usage_cap (operator_data : List Operator)
    (rules : List OperatorEfficiency)
    (system_keys : List (String × List String)) (ws : Workplaces)
    (pr : ProductRequirements) (fe_cfg : Bool) (plans : List Plan)
    (usage : List (String × Nat))
    (hnodup : ∀ r ∈ rules, r.operators.Nodup)
    (h : run_schedule operator_data rules system_keys ws pr fe_cfg =
      some (plans, usage)) :
    (∀ k, dictGetD usage k 0 ≤ 2 ∨
      ((fiammetta_targets_of operator_data rules fe_cfg).contains k = true ∧
        dictGetD usage k 0 ≤ 3)) ∧
    (∀ env wt n, max_usage_for env wt n = 3 ↔
      (env.fiammetta_targets.contains n = true ∧ wt = "trading_station")) := by
  constructor
  · simp only [run_schedule] at h
    exact @UsageBound_run_shifts
      { operators := load_operators_dict operator_data
        efficiency_rules := rules
        system_keys := system_keys
        fiammetta_targets := fiammetta_targets_of operator_data rules fe_cfg }
      _ _ hnodup _ _ _ _ h
      (UsageBound_of_zero (foldl_zero_dict _ [] (by simp)))
  · intro env wt n
    rw [max_usage_for]
    by_cases hc : (env.fiammetta_targets.contains n &&
        (wt == "trading_station")) = true
    · rw [if_pos hc]
      rw [Bool.and_eq_true, beq_iff_eq] at hc
      exact iff_of_true rfl hc
    · rw [if_neg hc]
      constructor
      · intro h2
        exact absurd h2 (by omega)
      · intro hcon
        refine absurd ?_ hc
        rw [Bool.and_eq_true, beq_iff_eq]
        exact hcon

theorem C3_usage_cap_witness :
    dictGetD outC3.2 "D" 0 ≤ 2 ∨
      ((fiammetta_targets_of catalogC3 rulesC3 true).contains "D" = true ∧
        dictGetD outC3.2 "D" 0 ≤ 3) :=
  (C3_usage_cap catalogC3 rulesC3 (sysKeys specC3) workplacesC3 noProducts
    true outC3.1 outC3.2 (by decide) (by rfl)).1 "D"

/-- C3 counterexample: 巫恋 is the quota-boost target and ends the cycle
at usage count 3, yet its assignments in the first two shifts are
manufacturing rooms (the trading slot going to `D`), so the relaxed cap
is reached without all assignments being to trading workplaces. -/
theorem C3_counterexample :
    (fiammetta_targets_of catalogC3 rulesC3 true).contains "巫恋" = true ∧
    dictGetD outC3.2 "巫恋" 0 = 3 ∧
    outC3.1.map (fun p => p.manufacture.map (fun r => r.operators)) =
      [[["巫恋"]], [["巫恋"]], [[]]] ∧
    outC3.1.map (fun p => p.trading.map (fun r => r.operators)) =
      [[["D"]], [["D"]], [["巫恋"]]] := by
  exact ⟨by decide, by decide, by decide, by decide⟩

/-! ### C5: crash-freedom of the core pipeline -/

/-- C5: refuted by the code. The C5 configuration passes rule compilation
(`load_efficiency_rules` succeeds), yet the core pipeline crashes —
modelled as `none` — because the dormitory admission
`operator_usage[req.operator] += 1` raises a `KeyError` on an operator
that is not a key of the usage dict: the recursive filler applies a rule
whose dormitory requirement (naming the uncatalogued operator `Z`) was
never checked, and the collected requirement then reaches the admission
fold. -/
theorem C5_core_pipeline_crash :
    (load_efficiency_rules specC5).isSome = true ∧
    run_schedule catalogC5 ((load_efficiency_rules specC5).getD [])
      (sysKeys specC5) workplacesC5 noProducts false = none := by
  exact ⟨by decide, by decide⟩

/-! ### C7: determinism of the pipeline -/

/-- Plan similarity: equal in every field except the control-center and
dormitory operator lists, which are permutations of one another. -/
def planSimilar (p1 p2 : Plan) : Prop :=
  p1.name = p2.name ∧ p1.description = p2.description ∧
  p1.fiammetta_enable = p2.fiammetta_enable ∧
  p1.fiammetta_target = p2.fiammetta_target ∧
  p1.trading = p2.trading ∧ p1.manufacture = p2.manufacture ∧
  p1.meeting = p2.meeting ∧ p1.power = p2.power ∧
  p1.control_operators.Perm p2.control_operators ∧
  Option.Rel List.Perm p1.dormitory_operators p2.dormitory_operators

/-- C7 (amended): the pipeline is deterministic only up to the iteration
order of the emitted control-center and dormitory sets (`list(set)`), which
Python does not fix across processes. For any two permutation-valid set
enumerations the two runs agree on success/failure and produce pairwise
similar plans: identical in every field except the control-center and
dormitory lists, which are permutations of one another. -/
theorem C7_determinism (e1 e2 : List String → List String)
    (he1 : ∀ l : List String, (e1 l).Perm l)
    (he2 : ∀ l : List String, (e2 l).Perm l)
    (operator_data : List Operator) (spec : RuleSpec) (ws : Workplaces)
    (pr : ProductRequirements) (fe : Bool) :
    Option.Rel (List.Forall₂ planSimilar)
      (get_optimal_assignments_with e1 operator_data spec ws pr fe)
      (get_optimal_assignments_with e2 operator_data spec ws pr fe) := by
  rw [get_optimal_assignments_with, get_optimal_assignments_with]
  rcases hle : load_efficiency_rules spec with _ | rules
  · exact Option.Rel.none
  · simp only []
    rcases hrs : run_schedule operator_data rules
        (spec.combination_rules.map (fun p => (p.1, p.2.map (·.1)))) ws pr fe
      with _ | ⟨plans, u⟩
    · simp only [hrs]
      exact Option.Rel.none
    · simp only [hrs]
      refine Option.Rel.some ?_
      rw [List.forall₂_map_left_iff, List.forall₂_map_right_iff]
      refine List.forall₂_same.mpr ?_
      intro p hp
      refine ⟨rfl, rfl, rfl, rfl, rfl, rfl, rfl, rfl,
        (he1 _).trans (he2 _).symm, ?_⟩
      rcases hd : p.dormitory_operators with _ | d
      · show Option.Rel List.Perm (p.dormitory_operators.map e1)
          (p.dormitory_operators.map e2)
        rw [hd]
        exact Option.Rel.none
      · show Option.Rel List.Perm (p.dormitory_operators.map e1)
          (p.dormitory_operators.map e2)
        rw [hd]
        exact Option.Rel.some ((he1 d).trans (he2 d).symm)


theorem C7_determinism_witness :
    Option.Rel (List.Forall₂ planSimilar)
      (get_optimal_assignments_with id catalogC7 specC7 workplacesC7
        noProducts false)
      (get_optimal_assignments_with List.reverse catalogC7 specC7
        workplacesC7 noProducts false) :=
  C7_determinism id List.reverse (fun l => List.Perm.refl l)
    (fun l => l.reverse_perm) catalogC7 specC7 workplacesC7 noProducts false

/-- C7 counterexample: `List.reverse` is a permutation-valid set
enumeration, yet it yields a different output than the insertion-order
enumeration on the C7 configuration — the emitted control-center list is
`["X", "Y"]` under one order and `["Y", "X"]` under the other, so the
output is not byte-identical across processes (Python randomizes the
string-hash iteration order of `set` per process). -/
theorem C7_counterexample :
    (∀ l : List String, (List.reverse l).Perm l) ∧
    (get_optimal_assignments_with id catalogC7 specC7 workplacesC7
        noProducts false).map (fun ps => ps.map (fun p => p.control_operators)) =
      some [["X", "Y"], ["X", "Y"], []] ∧
    (get_optimal_assignments_with List.reverse catalogC7 specC7 workplacesC7
        noProducts false).map (fun ps => ps.map (fun p => p.control_operators)) =
      some [["Y", "X"], ["Y", "X"], []] ∧
    get_optimal_assignments_with id catalogC7 specC7 workplacesC7 noProducts
        false ≠
      get_optimal_assignments_with List.reverse catalogC7 specC7 workplacesC7
        noProducts false := by
  exact ⟨fun l => l.reverse_perm, by decide, by decide, by decide⟩

end Infrast
